import Mathlib

/-!
# Ridici / CommArdu: the framed message protocol of `Message.cpp`

A shallow embedding of `src/CommArdu/src/Message.cpp` (zero-byte stuffing codec,
stream receiver `readMessage`, sender `writeMessage`) and theorems about it.

Conventions of the embedding

* `unsigned char` values are `Nat` with an explicit `% 256` at every place where
  the source narrows to `unsigned char`; `int` values that can go negative
  (`readLen - 1`, `readLen - 2`, `ptr + length - 1`) are `Int`.
* The fixed-size global arrays are `List Nat` of the declared size, pointers into
  them are offsets from the array base.  Every load and store is bounds-checked:
  an access outside the array is undefined behaviour in C and is reported here
  as `Fault.outOfBounds`.
* The external collaborators are recorded, not executed: each `parseMessage`
  call is appended to `Receiver.parsed` (snapshot of the buffer it is handed and
  its `len` argument), each `writeComm` call to `Sender.written`.
  `digitalWrite(A5, LOW)` touches no variable of this module and is left out.
-/

namespace Ridici

set_option autoImplicit false

/-! ## Buffer sizes (`Message.cpp` lines 11-14) -/

def READ_MESSAGE_BUFFER_SIZE : Nat := 254
def READ_BUFFER_SIZE : Nat := 256
def WRITE_MESSAGE_BUFFER_SIZE : Nat := 254
def WRITE_BUFFER_SIZE : Nat := 256

/-! ## Memory accesses -/

instance instDecidableEqExcept {ε α : Type} [DecidableEq ε] [DecidableEq α] :
    DecidableEq (Except ε α)
  | .ok a, .ok b => if h : a = b then isTrue (by rw [h]) else isFalse (by intro h1; cases h1; exact h rfl)
  | .error a, .error b => if h : a = b then isTrue (by rw [h]) else isFalse (by intro h1; cases h1; exact h rfl)
  | .ok _, .error _ => isFalse (by intro h1; cases h1)
  | .error _, .ok _ => isFalse (by intro h1; cases h1)

/-- Reasons for which a run of the embedded code stops without a result. -/
inductive Fault where
  | outOfBounds
  | outOfFuel
  deriving DecidableEq, Repr

/-- The C expression `buf[i]` read as an rvalue, `i` an array offset. -/
def load (buf : List Nat) (i : Nat) : Except Fault Nat :=
  if i < buf.length then .ok (buf.getD i 0) else .error .outOfBounds

/-- The C expression `buf[i]` read as an rvalue, `i` of type `int`. -/
def loadInt (buf : List Nat) (i : Int) : Except Fault Nat :=
  if 0 ≤ i then load buf i.toNat else .error .outOfBounds

/-- The C assignment `buf[i] = v`. -/
def store (buf : List Nat) (i : Nat) (v : Nat) : Except Fault (List Nat) :=
  if i < buf.length then .ok (buf.set i v) else .error .outOfBounds

/-! ## `stuffData` (`Message.cpp` lines 89-108) -/

/-- Local variables of `stuffData` that change in its loop: the write pointer
`dst` (as the offset `dstp`), `code_ptr`, `code`, and the destination array. -/
structure StuffSt where
  dstp : Nat
  code_ptr : Nat
  code : Nat
  dst : List Nat
  deriving DecidableEq, Repr

/-- The macro `FinishBlock(X)`: `*code_ptr = (X), code_ptr = dst++, code = 0x01`. -/
def FinishBlock (X : Nat) (s : StuffSt) : Except Fault StuffSt := do
  let d ← store s.dst s.code_ptr X
  pure { dstp := s.dstp + 1, code_ptr := s.dstp, code := 0x01, dst := d }

/-- The loop `while (ptr < end) { ...; ptr++; }` of `stuffData`, where
`end = ptr + length`: the first argument is `end - ptr`, the number of
iterations still to run, the second is `ptr`. -/
def stuffLoop (src : List Nat) : Nat → Nat → StuffSt → Except Fault StuffSt
  | 0, _, s => pure s
  | n + 1, ptr, s => do
    let b ← load src ptr
    let s1 ← if b = 0 then FinishBlock s.code s
      else do
        let d ← store s.dst s.dstp b
        pure { s with dstp := s.dstp + 1, code := (s.code + 1) % 256, dst := d }
    stuffLoop src n (ptr + 1) s1

/-- The function `stuffData(ptr, length, dst)`; `src` is the array `ptr` points
to and `dst` the array `dst` points to, the result is the destination array
afterwards.  `length` is narrowed to `unsigned char`. -/
def stuffData (src : List Nat) (length : Nat) (dst : List Nat) : Except Fault (List Nat) := do
  let s1 ← stuffLoop src (length % 256) 0 { dstp := 1, code_ptr := 0, code := 0x01, dst := dst }
  let d ← store s1.dst s1.dstp 0
  let s2 ← FinishBlock s1.code { s1 with dst := d }
  pure s2.dst

/-! ## `unStuffData` (`Message.cpp` lines 77-87) -/

/-- Local variables of `unStuffData`: the read pointer `ptr`, the write pointer
`dst` (as the offset `dstp`), and the destination array. -/
structure UnstuffSt where
  ptr : Nat
  dstp : Nat
  dst : List Nat
  deriving DecidableEq, Repr

/-- The inner loop `for (i=1; i<code; i++) *dst++ = *ptr++;`: the first
argument is the number of iterations still to run. -/
def unStuffCopy (src : List Nat) : Nat → UnstuffSt → Except Fault UnstuffSt
  | 0, s => pure s
  | k + 1, s => do
    let b ← load src s.ptr
    let d ← store s.dst s.dstp b
    unStuffCopy src k { ptr := s.ptr + 1, dstp := s.dstp + 1, dst := d }

/-- The outer loop `while (ptr < end)` of `unStuffData`, with fuel. -/
def unStuffLoop (src : List Nat) (endp : Int) : Nat → UnstuffSt → Except Fault UnstuffSt
  | 0, s => if (s.ptr : Int) < endp then .error .outOfFuel else pure s
  | fuel + 1, s =>
    if (s.ptr : Int) < endp then do
      let code ← load src s.ptr
      let s1 ← unStuffCopy src (code - 1) { s with ptr := s.ptr + 1 }
      let d ← store s1.dst s1.dstp 0
      unStuffLoop src endp fuel { s1 with dstp := s1.dstp + 1, dst := d }
    else pure s

/-- The function `unStuffData(ptr, length, dst)`.  `length` is narrowed to
`unsigned char`, `end = ptr + length - 1` (the offset -1 when `length` is 0, in
which case the loop is not entered).  Every iteration of the outer loop
advances `ptr`, so `length` iterations are enough fuel.  The result carries the
final values of `ptr` and `dst` next to the destination array. -/
def unStuffData (src : List Nat) (length : Nat) (dst : List Nat) : Except Fault UnstuffSt :=
  unStuffLoop src (((length % 256 : Nat) : Int) - 1) (length % 256)
    { ptr := 0, dstp := 0, dst := dst }

/-! ## The receiver: `initMessage`, `readMessage` (`Message.cpp` lines 34-59) -/

/-- One recorded call `parseMessage(data, len)`: the contents of the array
`data` points to at the time of the call, and `len`. -/
structure ParseCall where
  data : List Nat
  len : Int
  deriving DecidableEq, Repr

/-- Receive-side globals `inMessageBuffer`, `readBuffer`, `readLen`, and the
calls of `parseMessage` made so far. -/
structure Receiver where
  inMessageBuffer : List Nat
  readBuffer : List Nat
  readLen : Nat
  parsed : List ParseCall
  deriving DecidableEq, Repr

/-- The function `initMessage`. -/
def initMessage (s : Receiver) : Receiver :=
  { s with readLen := 0 }

/-- One iteration of the loop of `readMessage`, `b` being the value returned by
`readComm()` (an `unsigned char`). -/
def readByte (b : Nat) (s : Receiver) : Except Fault Receiver := do
  let rb ← store s.readBuffer s.readLen (b % 256)
  let rl := (s.readLen + 1) % 256
  let last ← loadInt rb ((rl : Int) - 1)
  if last = 0 then do
    let u ← unStuffData rb rl s.inMessageBuffer
    pure { inMessageBuffer := u.dst, readBuffer := rb, readLen := 0,
           parsed := s.parsed ++ [{ data := u.dst, len := (rl : Int) - 2 }] }
  else
    pure { s with readBuffer := rb, readLen := rl }

/-- The function `readMessage`: `avail` is the sequence of bytes the transport
has available during the call (`availableComm() > 0` as long as it is not
exhausted). -/
def readMessage : List Nat → Receiver → Except Fault Receiver
  | [], s => pure s
  | b :: rest, s => do
    let s1 ← readByte b s
    readMessage rest s1

/-- Successive calls of `readMessage` (`updateMessage` on successive ticks), one
per element of `chunks`. -/
def readMessages : List (List Nat) → Receiver → Except Fault Receiver
  | [], s => pure s
  | c :: cs, s => do
    let s1 ← readMessage c s
    readMessages cs s1

/-- The receiver at start-up: zero-initialised globals. -/
def Receiver.start : Receiver :=
  { inMessageBuffer := List.replicate READ_MESSAGE_BUFFER_SIZE 0,
    readBuffer := List.replicate READ_BUFFER_SIZE 0,
    readLen := 0, parsed := [] }

/-! ## The sender: `writeMessage` (`Message.cpp` lines 61-75) -/

/-- Send-side globals `outMessageBuffer`, `writeBuffer`, and the calls
`writeComm(data, len)` made so far (the `len` bytes at `data`). -/
structure Sender where
  outMessageBuffer : List Nat
  writeBuffer : List Nat
  written : List (List Nat)
  deriving DecidableEq, Repr

/-- The loop `for (int j = 0; j < len; j++) outMessageBuffer[1 + j] = data[j];`:
the first argument is the number of iterations still to run, the second is `j`. -/
def copyPayload (data : List Nat) : Nat → Nat → List Nat → Except Fault (List Nat)
  | 0, _, out => pure out
  | n + 1, j, out => do
    let b ← load data j
    let out1 ← store out (1 + j) b
    copyPayload data n (j + 1) out1

/-- The call `writeComm(data, len)` as seen from this module: the transport
reads `len` bytes from `data`. -/
def writeComm (data : List Nat) (len : Int) : Except Fault (List Nat) :=
  if len.toNat ≤ data.length then .ok (data.take len.toNat) else .error .outOfBounds

/-- The function `writeMessage(data, len)`. -/
def writeMessage (data : List Nat) (len : Int) (s : Sender) : Except Fault Sender := do
  let writeLen := ((len + 1) % 256).toNat
  let out0 ← store s.outMessageBuffer 0 writeLen
  let out1 ← copyPayload data len.toNat 0 out0
  let wb ← stuffData out1 writeLen s.writeBuffer
  let sent ← writeComm wb ((writeLen : Int) + 2)
  pure { outMessageBuffer := out1, writeBuffer := wb, written := s.written ++ [sent] }

/-- The sender at start-up: zero-initialised globals. -/
def Sender.start : Sender :=
  { outMessageBuffer := List.replicate WRITE_MESSAGE_BUFFER_SIZE 0,
    writeBuffer := List.replicate WRITE_BUFFER_SIZE 0,
    written := [] }

/-- Every element is an `unsigned char` value. -/
def Bytes (l : List Nat) : Prop := ∀ b ∈ l, b < 256

instance (l : List Nat) : Decidable (Bytes l) := by
  unfold Bytes; infer_instance

/-! ## Mathematical description of the wire format

The following functions are not translations of source code: they describe the
block structure the codec produces, and are what the loops are proved to
compute. -/

/-- The code byte of a block whose literal bytes are `run`, as an `unsigned char`. -/
def blockCode (run : List Nat) : Nat := (run.length + 1) % 256

/-- The zero-free runs of `run ++ xs` when `run` is zero-free: `xs` is cut at
every zero byte, `run` being the beginning of the first piece. -/
def splitRuns : List Nat → List Nat → List (List Nat)
  | run, [] => [run]
  | run, b :: xs => if b = 0 then run :: splitRuns [] xs else splitRuns (run ++ [b]) xs

/-- Concatenation of the blocks `code :: literals` of the given runs. -/
def blocks : List (List Nat) → List Nat
  | [] => []
  | r :: rs => blockCode r :: r ++ blocks rs

/-- Concatenation of the runs, each followed by a zero byte. -/
def zeroEnded : List (List Nat) → List Nat
  | [] => []
  | r :: rs => r ++ 0 :: zeroEnded rs

/-- The stuffed form of `X`, without the terminator. -/
def cobs (X : List Nat) : List Nat := blocks (splitRuns [] X)

/-- The frame of payload `P` on the wire: the stuffed form of the pre-stuffed
buffer `[P.length + 1] ++ P`, then the terminator. -/
def frame (P : List Nat) : List Nat := cobs ((P.length + 1) :: P) ++ [0]

/-! ## Auxiliary definitions for the statements and proofs below

Closed forms of what the embedded functions are proved to compute, and a few
harness definitions (successive sends, what a delivered call looks like). -/

/-- The part of `stuffData` after its loop. -/
def stuffFinish (s1 : StuffSt) : Except Fault (List Nat) := do
  let d ← store s1.dst s1.dstp 0
  let s2 ← FinishBlock s1.code { s1 with dst := d }
  pure s2.dst

/-- The send-side globals after `writeMessage(P, P.length)` in state `s`, for a
payload of at most 253 bytes (see `writeMessage_spec`). -/
def Sender.afterSend (s : Sender) (P : List Nat) : Sender :=
  { outMessageBuffer := (P.length + 1) :: P ++ s.outMessageBuffer.drop (P.length + 1),
    writeBuffer := cobs ((P.length + 1) :: P) ++ 0 :: s.writeBuffer.drop (P.length + 3),
    written := s.written ++ [frame P] }

/-- The buffer `parseMessage` is handed when the frame of `P` has been received
in state `r` with an empty accumulator (see `readMessage_frame`). -/
def Receiver.decoded (r : Receiver) (P : List Nat) : List Nat :=
  (P.length + 1) :: P ++ 0 :: r.inMessageBuffer.drop (P.length + 2)

/-- The receive-side globals after the frame of `P`, of at most 252 bytes, has
been received in state `r` with an empty accumulator (see `readMessage_frame`). -/
def Receiver.afterFrame (r : Receiver) (P : List Nat) : Receiver :=
  { inMessageBuffer := r.decoded P,
    readBuffer := cobs ((P.length + 1) :: P) ++ 0 :: r.readBuffer.drop (P.length + 3),
    readLen := 0,
    parsed := r.parsed ++ [{ data := r.decoded P, len := (P.length : Int) + 1 }] }

/-- Successive calls `writeMessage(P, P.length)`, one per payload of the list. -/
def sendAll : List (List Nat) → Sender → Except Fault Sender
  | [], s => pure s
  | P :: Ps, s => do
    let s1 ← writeMessage P (P.length : Int) s
    sendAll Ps s1

/-- What the consumer is handed for payload `P`: a call whose `len` is
`P.length + 1` and whose buffer starts with the pre-stuffed buffer
`[P.length + 1] ++ P`. -/
def Delivers (P : List Nat) (c : ParseCall) : Prop :=
  c.len = (P.length : Int) + 1 ∧ c.data.take (P.length + 1) = (P.length + 1) :: P

/-! ## `writeMessage` and the result of the transport (`Comm.cpp` lines 53-61) -/

/-- The call `writeComm(data, len)` with what it returns: the bytes the
transport is handed, and the `int` result of the transport's write
(`Serial.write`, `softSerial.write`, or the constant 0 of the null transport),
given by `transport`. -/
def writeCommResult (transport : List Nat → Int) (data : List Nat) (len : Int) :
    Except Fault (List Nat × Int) := do
  let sent ← writeComm data len
  pure (sent, transport sent)

/-- The function `writeMessage(data, len)` with what it returns to its caller.
It is declared `void`; its last statement `writeComm(writeBuffer, writeLen + 2);`
is an expression statement, so the `int` that `writeComm` returns is not used. -/
def writeMessageVoid (transport : List Nat → Int) (data : List Nat) (len : Int) (s : Sender) :
    Except Fault (Sender × Unit) := do
  let writeLen := ((len + 1) % 256).toNat
  let out0 ← store s.outMessageBuffer 0 writeLen
  let out1 ← copyPayload data len.toNat 0 out0
  let wb ← stuffData out1 writeLen s.writeBuffer
  let res ← writeCommResult transport wb ((writeLen : Int) + 2)
  pure ({ outMessageBuffer := out1, writeBuffer := wb, written := s.written ++ [res.1] }, ())

/-! ## Well-formed frames

The wire grammar `stuffed_block := code_byte literal_byte{code_byte - 1}`,
`code_byte ∈ [1, 255]`, with non-zero literal bytes, written on the list of the
literal runs of the blocks. -/

/-- Concatenation of the blocks of the given literal runs: each block is its
code byte, the number of bytes of the block including itself, then its literal
bytes. -/
def wireBlocks : List (List Nat) → List Nat
  | [] => []
  | r :: rs => (r.length + 1) :: r ++ wireBlocks rs

/-- The runs are literal runs of blocks: the code byte `r.length + 1` is in
`[1, 255]` and every literal byte is a non-zero byte. -/
def BlockRuns (rs : List (List Nat)) : Prop :=
  ∀ r ∈ rs, r.length + 1 ≤ 255 ∧ ∀ b ∈ r, b ≠ 0 ∧ b < 256

instance (rs : List (List Nat)) : Decidable (BlockRuns rs) := by
  unfold BlockRuns; infer_instance

/-! ## Basic facts about the memory accesses -/

@[simp] theorem ok_bind {α β : Type} (a : α) (f : α → Except Fault β) :
    (Except.ok a >>= f) = f a := rfl

@[simp] theorem error_bind {α β : Type} (e : Fault) (f : α → Except Fault β) :
    ((Except.error e : Except Fault α) >>= f) = Except.error e := rfl

@[simp] theorem pure_eq_ok {α : Type} (a : α) : (pure a : Except Fault α) = Except.ok a := rfl

theorem load_append (a : List Nat) (b : Nat) (c : List Nat) :
    load (a ++ b :: c) a.length = .ok b := by
  simp [load, List.getElem_append_right]

theorem store_append (a : List Nat) (b : Nat) (c : List Nat) (v : Nat) :
    store (a ++ b :: c) a.length v = .ok (a ++ v :: c) := by
  simp [store]

/-! ## What `stuffData` computes -/

theorem stuffData_eq (src : List Nat) (length : Nat) (dst : List Nat) :
    stuffData src length dst =
      (stuffLoop src (length % 256) 0 { dstp := 1, code_ptr := 0, code := 0x01, dst := dst }
        >>= stuffFinish) := rfl

theorem blockCode_snoc (run : List Nat) (b : Nat) :
    (blockCode run + 1) % 256 = blockCode (run ++ [b]) := by
  simp [blockCode]

theorem stuffLoop_finish (xs : List Nat) :
    ∀ (sp rest pre : List Nat) (c : Nat) (run tail : List Nat), xs.length < tail.length →
      (stuffLoop (sp ++ xs ++ rest) xs.length sp.length
          { dstp := pre.length + 1 + run.length, code_ptr := pre.length,
            code := blockCode run, dst := pre ++ c :: run ++ tail } >>= stuffFinish)
        = .ok (pre ++ blocks (splitRuns run xs) ++ 0 :: tail.drop (xs.length + 1)) := by
  induction xs with
  | nil =>
    intro sp rest pre c run tail h
    match tail, h with
    | t :: tail1, _ =>
      have e1 : pre ++ c :: run ++ t :: tail1 = (pre ++ c :: run) ++ t :: tail1 := by simp
      have l1 : pre.length + 1 + run.length = (pre ++ c :: run).length := by simp; omega
      simp only [stuffLoop, List.length_nil, pure_eq_ok, ok_bind, stuffFinish]
      rw [e1, l1, store_append]
      simp only [ok_bind, FinishBlock]
      have e2 : (pre ++ c :: run) ++ 0 :: tail1 = pre ++ c :: (run ++ 0 :: tail1) := by simp
      rw [e2, store_append]
      simp [splitRuns, blocks]
  | cons b xs ih =>
    intro sp rest pre c run tail h
    match tail, h with
    | t :: tail1, h =>
      have hx : xs.length < tail1.length := by simpa using h
      have e0 : sp ++ b :: xs ++ rest = sp ++ b :: (xs ++ rest) := by simp
      have e3 : sp ++ b :: xs ++ rest = (sp ++ [b]) ++ xs ++ rest := by simp
      have l3 : sp.length + 1 = (sp ++ [b]).length := by simp
      simp only [stuffLoop, List.length_cons]
      rw [e0, load_append, ok_bind, ← e0, e3, l3]
      by_cases hb : b = 0
      · simp only [hb, if_true, FinishBlock]
        have e1 : pre ++ c :: run ++ t :: tail1 = pre ++ c :: (run ++ t :: tail1) := by simp
        rw [e1, store_append]
        simp only [ok_bind, pure_eq_ok]
        have := ih (sp ++ [0]) rest (pre ++ blockCode run :: run) t [] tail1 hx
        simp only [List.length_append, List.length_cons, List.length_nil, List.length_singleton,
          List.append_assoc, List.cons_append, List.nil_append, Nat.add_zero] at this ⊢
        have hc : blockCode [] = 1 := by decide
        rw [hc] at this
        have l4 : pre.length + (run.length + 1) = pre.length + 1 + run.length := by omega
        rw [l4] at this
        rw [this]
        simp [splitRuns, blocks]
      · simp only [hb, if_false]
        have e1 : pre ++ c :: run ++ t :: tail1 = (pre ++ c :: run) ++ t :: tail1 := by simp
        have l1 : pre.length + 1 + run.length = (pre ++ c :: run).length := by simp; omega
        rw [e1, l1, store_append]
        simp only [ok_bind, pure_eq_ok]
        have := ih (sp ++ [b]) rest pre c (run ++ [b]) tail1 hx
        simp only [List.length_append, List.length_cons, List.length_nil, List.length_singleton,
          List.append_assoc, List.cons_append, List.nil_append, Nat.add_zero] at this ⊢
        rw [blockCode_snoc run b]
        have l4 : pre.length + (run.length + 1) + 1 = pre.length + 1 + (run.length + 1) := by omega
        rw [l4, this]
        simp [splitRuns, hb]

theorem blocks_length_splitRuns (xs : List Nat) :
    ∀ run : List Nat, (blocks (splitRuns run xs)).length = run.length + xs.length + 1 := by
  induction xs with
  | nil => intro run; simp [splitRuns, blocks]
  | cons b xs ih =>
    intro run
    by_cases hb : b = 0
    · simp [splitRuns, hb, blocks, ih]
    · simp [splitRuns, hb, ih]; omega

theorem cobs_length (X : List Nat) : (cobs X).length = X.length + 1 := by
  simp [cobs, blocks_length_splitRuns]

/-- What `stuffData` writes: the blocks of `X`, then the terminator; the rest of
the destination array is left as it was. -/
theorem stuffData_spec (X rest dst : List Nat) (hX : X.length ≤ 255)
    (hd : X.length + 2 ≤ dst.length) :
    stuffData (X ++ rest) X.length dst = .ok (cobs X ++ 0 :: dst.drop (X.length + 2)) := by
  match dst, hd with
  | c :: tail, hd =>
    have h := stuffLoop_finish X [] rest [] c [] tail (by simpa using hd)
    have hm : X.length % 256 = X.length := Nat.mod_eq_of_lt (by omega)
    rw [stuffData_eq, hm]
    simpa [blockCode, cobs] using h

/-! ## What `unStuffData` computes on a sequence of blocks -/

theorem split_at (l : List Nat) (n : Nat) (h : n < l.length) :
    ∃ a t b, l = a ++ t :: b ∧ a.length = n ∧ b.length = l.length - n - 1 := by
  refine ⟨l.take n, l[n], l.drop (n + 1), ?_, ?_, ?_⟩
  · rw [← List.drop_eq_getElem_cons h, List.take_append_drop]
  · rw [List.length_take]; omega
  · rw [List.length_drop]; omega

theorem unStuffCopy_spec (r : List Nat) :
    ∀ (src dst sp rest dpre dmid dtail : List Nat) (p d : Nat),
      src = sp ++ r ++ rest → p = sp.length → dst = dpre ++ dmid ++ dtail → d = dpre.length →
      dmid.length = r.length →
      unStuffCopy src r.length { ptr := p, dstp := d, dst := dst }
        = .ok { ptr := p + r.length, dstp := d + r.length, dst := dpre ++ r ++ dtail } := by
  induction r with
  | nil =>
    intro src dst sp rest dpre dmid dtail p d _ _ hdst _ h
    have : dmid = [] := List.length_eq_zero.mp h
    simp [unStuffCopy, this, hdst]
  | cons b r ih =>
    intro src dst sp rest dpre dmid dtail p d hsrc hp hdst hd h
    match dmid, h with
    | t :: dmid1, h =>
      have hl : dmid1.length = r.length := by simpa using h
      have e0 : src = sp ++ b :: (r ++ rest) := by simp [hsrc]
      have e1 : dst = dpre ++ t :: (dmid1 ++ dtail) := by simp [hdst]
      simp only [unStuffCopy, List.length_cons]
      rw [hp, hd]
      nth_rewrite 1 [e0]
      rw [load_append, ok_bind, e1, store_append, ok_bind]
      rw [ih src (dpre ++ b :: (dmid1 ++ dtail)) (sp ++ [b]) rest (dpre ++ [b]) dmid1 dtail
        (sp.length + 1) (dpre.length + 1) (by simp [hsrc]) (by simp) (by simp) (by simp) hl]
      simp; omega

theorem unStuffLoop_spec (rs : List (List Nat)) :
    ∀ (fuel : Nat) (src dst sp rest dpre dmid dtail : List Nat) (p d : Nat) (endp : Int),
      src = sp ++ blocks rs ++ rest → p = sp.length → dst = dpre ++ dmid ++ dtail →
      d = dpre.length → endp = ((p + (blocks rs).length : Nat) : Int) →
      (∀ r ∈ rs, r.length ≤ 254) → rs.length ≤ fuel → dmid.length = (blocks rs).length →
      unStuffLoop src endp fuel { ptr := p, dstp := d, dst := dst }
        = .ok { ptr := p + (blocks rs).length, dstp := d + (blocks rs).length,
                dst := dpre ++ zeroEnded rs ++ dtail } := by
  induction rs with
  | nil =>
    intro fuel src dst sp rest dpre dmid dtail p d endp _ _ hdst _ he _ _ h
    have : dmid = [] := List.length_eq_zero.mp (by simpa [blocks] using h)
    cases fuel <;> simp [unStuffLoop, blocks, zeroEnded, this, hdst, he]
  | cons r rs ih =>
    intro fuel src dst sp rest dpre dmid dtail p d endp hsrc hp hdst hd he hr hf h
    match fuel, hf with
    | fuel + 1, hf =>
      have hf1 : rs.length ≤ fuel := by simpa using hf
      have hr1 : r.length ≤ 254 := hr r (by simp)
      have hrs : ∀ q ∈ rs, q.length ≤ 254 := fun q hq => hr q (by simp [hq])
      have hlen : dmid.length = r.length + 1 + (blocks rs).length := by
        simp [blocks] at h; omega
      obtain ⟨m1, t, m2, rfl, hm1, hm2⟩ := split_at dmid r.length (by omega)
      have hm2 : m2.length = (blocks rs).length := by
        simp at hlen; omega
      have hcode : blockCode r = r.length + 1 := Nat.mod_eq_of_lt (by omega)
      have hbl : (blocks (r :: rs)).length = r.length + 1 + (blocks rs).length := by
        simp [blocks]; omega
      have hlt : (p : Int) < endp := by rw [he, hbl]; push_cast; omega
      have e0 : src = sp ++ (r.length + 1) :: (r ++ blocks rs ++ rest) := by
        simp [hsrc, blocks, hcode]
      simp only [unStuffLoop, hlt, if_true]
      rw [hp]
      nth_rewrite 1 [e0]
      rw [load_append, ok_bind, Nat.add_sub_cancel]
      rw [unStuffCopy_spec r src dst (sp ++ [r.length + 1]) (blocks rs ++ rest) dpre m1
        (t :: m2 ++ dtail) (sp.length + 1) d (by simp [e0]) (by simp) (by simp [hdst]) hd hm1]
      simp only [ok_bind]
      have e2 : dpre ++ r ++ (t :: m2 ++ dtail) = (dpre ++ r) ++ t :: (m2 ++ dtail) := by simp
      have l2 : d + r.length = (dpre ++ r).length := by simp [hd]
      rw [e2, l2, store_append, ok_bind]
      rw [ih fuel src ((dpre ++ r) ++ 0 :: (m2 ++ dtail)) (sp ++ (r.length + 1) :: r) rest
        (dpre ++ r ++ [0]) m2 dtail (sp.length + 1 + r.length) ((dpre ++ r).length + 1) endp
        (by simp [e0]) (by simp; omega) (by simp) (by simp; omega)
        (by rw [he, hp, hbl]; push_cast; omega)
        hrs hf1 hm2]
      simp [zeroEnded, hbl, hd]; omega

/-! ## The fuel of `unStuffData` is never exhausted -/

theorem unStuffCopy_ok (src : List Nat) (k : Nat) :
    ∀ (s s1 : UnstuffSt), unStuffCopy src k s = .ok s1 →
      s1.ptr = s.ptr + k ∧ s1.dstp = s.dstp + k := by
  induction k with
  | zero =>
    intro s s1 h
    simp only [unStuffCopy, pure_eq_ok, Except.ok.injEq] at h
    subst h
    simp
  | succ k ih =>
    intro s s1 h
    simp only [unStuffCopy] at h
    cases hl : load src s.ptr with
    | error e => rw [hl] at h; cases h
    | ok b =>
      rw [hl, ok_bind] at h
      cases hs : store s.dst s.dstp b with
      | error e => rw [hs] at h; cases h
      | ok d =>
        rw [hs, ok_bind] at h
        obtain ⟨h1, h2⟩ := ih _ s1 h
        simp only at h1 h2
        omega

theorem load_error (buf : List Nat) (i : Nat) (e : Fault) (h : load buf i = .error e) :
    e = .outOfBounds := by
  unfold load at h
  split at h
  · cases h
  · cases h; rfl

theorem store_error (buf : List Nat) (i v : Nat) (e : Fault) (h : store buf i v = .error e) :
    e = .outOfBounds := by
  unfold store at h
  split at h
  · cases h
  · cases h; rfl

theorem unStuffCopy_error (src : List Nat) (k : Nat) :
    ∀ (s : UnstuffSt) (e : Fault), unStuffCopy src k s = .error e → e = .outOfBounds := by
  induction k with
  | zero => intro s e h; simp [unStuffCopy] at h
  | succ k ih =>
    intro s e h
    simp only [unStuffCopy] at h
    cases hl : load src s.ptr with
    | error e1 => rw [hl] at h; cases h; exact load_error _ _ _ hl
    | ok b =>
      rw [hl, ok_bind] at h
      cases hs : store s.dst s.dstp b with
      | error e1 => rw [hs] at h; cases h; exact store_error _ _ _ _ hs
      | ok d =>
        rw [hs, ok_bind] at h
        exact ih _ e h

theorem unStuffLoop_fuel (src : List Nat) (endp : Int) (fuel : Nat) :
    ∀ s : UnstuffSt, endp ≤ (s.ptr : Int) + fuel →
      unStuffLoop src endp fuel s ≠ .error .outOfFuel := by
  induction fuel with
  | zero =>
    intro s h
    have hn : ¬ ((s.ptr : Int) < endp) := by push_cast at h; omega
    simp [unStuffLoop, hn]
  | succ fuel ih =>
    intro s h
    by_cases hc : (s.ptr : Int) < endp
    · simp only [unStuffLoop, hc, if_true]
      cases hl : load src s.ptr with
      | error e => rw [load_error _ _ _ hl]; simp
      | ok code =>
        rw [ok_bind]
        cases hcp : unStuffCopy src (code - 1) { s with ptr := s.ptr + 1 } with
        | error e => rw [unStuffCopy_error _ _ _ _ hcp]; simp
        | ok s1 =>
          rw [ok_bind]
          have hp := (unStuffCopy_ok _ _ _ _ hcp).1
          simp only at hp
          cases hs : store s1.dst s1.dstp 0 with
          | error e => rw [store_error _ _ _ _ hs]; simp
          | ok d =>
            rw [ok_bind]
            refine ih _ ?_
            simp only [hp]
            push_cast at h ⊢
            omega
    · simp [unStuffLoop, hc]

/-- The fuel given to the outer loop of `unStuffData` is always enough: the
only way `unStuffData` stops without a result is an access out of bounds. -/
theorem unStuffData_fuel (src : List Nat) (length : Nat) (dst : List Nat) :
    unStuffData src length dst ≠ .error .outOfFuel := by
  unfold unStuffData
  refine unStuffLoop_fuel _ _ _ _ ?_
  simp only
  push_cast
  omega

theorem blocks_length_eq_zeroEnded (rs : List (List Nat)) :
    (blocks rs).length = (zeroEnded rs).length := by
  induction rs with
  | nil => rfl
  | cons r rs ih => simp [blocks, zeroEnded, ih]; omega

theorem zeroEnded_splitRuns (xs : List Nat) :
    ∀ run : List Nat, zeroEnded (splitRuns run xs) = run ++ xs ++ [0] := by
  induction xs with
  | nil => intro run; simp [splitRuns, zeroEnded]
  | cons b xs ih =>
    intro run
    by_cases hb : b = 0
    · simp [splitRuns, hb, zeroEnded, ih]
    · simp [splitRuns, hb, ih]

theorem splitRuns_length_le (xs : List Nat) :
    ∀ run : List Nat, ∀ r ∈ splitRuns run xs, r.length ≤ run.length + xs.length := by
  induction xs with
  | nil => intro run r hr; simp [splitRuns] at hr; simp [hr]
  | cons b xs ih =>
    intro run r hr
    by_cases hb : b = 0
    · simp only [splitRuns, hb, if_true, List.mem_cons] at hr
      rcases hr with rfl | hr
      · omega
      · have := ih [] r hr; simp at this ⊢; omega
    · simp only [splitRuns, hb, if_false] at hr
      have := ih (run ++ [b]) r hr; simp at this ⊢; omega

theorem splitRuns_length (xs : List Nat) :
    ∀ run : List Nat, (splitRuns run xs).length ≤ xs.length + 1 := by
  induction xs with
  | nil => intro run; simp [splitRuns]
  | cons b xs ih =>
    intro run
    by_cases hb : b = 0
    · simp [splitRuns, hb]; exact ih []
    · simp [splitRuns, hb]; have := ih (run ++ [b]); omega

/-- What `unStuffData` computes on the stuffed form of `X` followed by anything:
`X` and one more zero byte, in `X.length + 1` bytes of the destination, reading
the `X.length + 1` bytes before the terminator position. -/
theorem unStuffData_cobs (X rest dmid dtail : List Nat) (hX : X.length ≤ 253)
    (hd : dmid.length = X.length + 1) :
    unStuffData (cobs X ++ rest) (X.length + 2) (dmid ++ dtail)
      = .ok { ptr := X.length + 1, dstp := X.length + 1, dst := X ++ 0 :: dtail } := by
  have hm : (X.length + 2) % 256 = X.length + 2 := Nat.mod_eq_of_lt (by omega)
  have hb : (blocks (splitRuns [] X)).length = X.length + 1 := by
    simpa using blocks_length_splitRuns X []
  unfold unStuffData
  rw [hm, unStuffLoop_spec (splitRuns [] X) (X.length + 2) (cobs X ++ rest) (dmid ++ dtail) []
    rest [] dmid dtail 0 0 _ (by simp [cobs]) rfl (by simp) rfl (by rw [hb]; push_cast; omega)
    (fun r hr => by have := splitRuns_length_le X [] r hr; simp at this; omega)
    (by have := splitRuns_length X []; omega) (by rw [hb, hd])]
  simp [hb, zeroEnded_splitRuns]

/-! ## Zero bytes of the stuffed form -/

theorem splitRuns_nonzero (xs : List Nat) :
    ∀ run : List Nat, (∀ b ∈ run, b ≠ 0) → ∀ r ∈ splitRuns run xs, ∀ b ∈ r, b ≠ 0 := by
  induction xs with
  | nil => intro run h r hr; simp [splitRuns] at hr; subst hr; exact h
  | cons x xs ih =>
    intro run h r hr
    by_cases hx : x = 0
    · simp only [splitRuns, hx, if_true, List.mem_cons] at hr
      rcases hr with rfl | hr
      · exact h
      · exact ih [] (by simp) r hr
    · simp only [splitRuns, hx, if_false] at hr
      refine ih (run ++ [x]) ?_ r hr
      intro b hb
      rcases List.mem_append.mp hb with hb | hb
      · exact h b hb
      · simp at hb; omega

theorem blocks_nonzero (rs : List (List Nat)) (hl : ∀ r ∈ rs, r.length ≤ 254)
    (hz : ∀ r ∈ rs, ∀ b ∈ r, b ≠ 0) : ∀ b ∈ blocks rs, b ≠ 0 := by
  induction rs with
  | nil => simp [blocks]
  | cons r rs ih =>
    intro b hb
    simp only [blocks, List.mem_cons, List.mem_append] at hb
    have hr : r.length ≤ 254 := hl r (by simp)
    rcases hb with (rfl | hb) | hb
    · unfold blockCode; omega
    · exact hz r (by simp) b hb
    · exact ih (fun q hq => hl q (by simp [hq])) (fun q hq => hz q (by simp [hq])) b hb

/-- The stuffed form of at most 254 bytes contains no zero byte. -/
theorem cobs_nonzero (X : List Nat) (hX : X.length ≤ 254) : ∀ b ∈ cobs X, b ≠ 0 :=
  blocks_nonzero _ (fun r hr => by have := splitRuns_length_le X [] r hr; simp at this; omega)
    (splitRuns_nonzero X [] (by simp))

theorem splitRuns_bytes (xs : List Nat) :
    ∀ run : List Nat, Bytes run → Bytes xs → ∀ r ∈ splitRuns run xs, Bytes r := by
  induction xs with
  | nil => intro run h _ r hr; simp [splitRuns] at hr; subst hr; exact h
  | cons x xs ih =>
    intro run h hxs r hr
    have hx1 : x < 256 := hxs x (by simp)
    have hxs1 : Bytes xs := fun b hb => hxs b (by simp [hb])
    by_cases hx : x = 0
    · simp only [splitRuns, hx, if_true, List.mem_cons] at hr
      rcases hr with rfl | hr
      · exact h
      · exact ih [] (by simp [Bytes]) hxs1 r hr
    · simp only [splitRuns, hx, if_false] at hr
      refine ih (run ++ [x]) ?_ hxs1 r hr
      intro b hb
      rcases List.mem_append.mp hb with hb | hb
      · exact h b hb
      · simp at hb; omega

theorem blocks_bytes (rs : List (List Nat)) (hz : ∀ r ∈ rs, Bytes r) : Bytes (blocks rs) := by
  induction rs with
  | nil => simp [blocks, Bytes]
  | cons r rs ih =>
    intro b hb
    simp only [blocks, List.mem_cons, List.mem_append] at hb
    rcases hb with (rfl | hb) | hb
    · unfold blockCode; omega
    · exact hz r (by simp) b hb
    · exact ih (fun q hq => hz q (by simp [hq])) b hb

/-- The stuffed form of bytes consists of bytes. -/
theorem cobs_bytes (X : List Nat) (hX : Bytes X) : Bytes (cobs X) :=
  blocks_bytes _ (splitRuns_bytes X [] (by simp [Bytes]) hX)

/-- The runs of a sequence without zero byte: one run. -/
theorem splitRuns_of_nonzero (xs : List Nat) :
    ∀ run : List Nat, (∀ b ∈ xs, b ≠ 0) → splitRuns run xs = [run ++ xs] := by
  induction xs with
  | nil => intro run _; simp [splitRuns]
  | cons x xs ih =>
    intro run h
    have hx : x ≠ 0 := h x (by simp)
    simp [splitRuns, hx, ih (run ++ [x]) (fun b hb => h b (by simp [hb]))]

theorem cobs_of_nonzero (X : List Nat) (h : ∀ b ∈ X, b ≠ 0) :
    cobs X = (X.length + 1) % 256 :: X := by
  simp [cobs, splitRuns_of_nonzero X [] h, blocks, blockCode]

/-! ## What `writeMessage` computes -/

theorem frame_length (P : List Nat) : (frame P).length = P.length + 3 := by
  simp [frame, cobs_length]

theorem copyPayload_spec (P : List Nat) :
    ∀ (data out dp rest opre omid otail : List Nat) (j : Nat),
      data = dp ++ P ++ rest → j = dp.length → out = opre ++ omid ++ otail →
      1 + j = opre.length → omid.length = P.length →
      copyPayload data P.length j out = .ok (opre ++ P ++ otail) := by
  induction P with
  | nil =>
    intro data out dp rest opre omid otail j _ _ hout _ h
    have : omid = [] := List.length_eq_zero.mp h
    simp [copyPayload, this, hout]
  | cons b P ih =>
    intro data out dp rest opre omid otail j hdata hj hout ho h
    match omid, h with
    | t :: omid1, h =>
      have hl : omid1.length = P.length := by simpa using h
      have e0 : data = dp ++ b :: (P ++ rest) := by simp [hdata]
      have e1 : out = opre ++ t :: (omid1 ++ otail) := by simp [hout]
      simp only [copyPayload, List.length_cons]
      subst hj
      rw [ho]
      nth_rewrite 1 [e0]
      rw [load_append, ok_bind, e1, store_append, ok_bind]
      rw [ih data (opre ++ b :: (omid1 ++ otail)) (dp ++ [b]) rest (opre ++ [b]) omid1 otail
        (dp.length + 1) (by simp [hdata]) (by simp) (by simp) (by simp; omega) hl]
      simp

theorem take_frame_append (P rest : List Nat) :
    (cobs ((P.length + 1) :: P) ++ 0 :: rest).take (P.length + 3) = frame P := by
  rw [List.take_append_eq_append_take]
  simp [cobs_length, frame]

/-- What `writeMessage` does for a payload of at most 253 bytes. -/
theorem writeMessage_spec (P : List Nat) (s : Sender) (hP : P.length ≤ 253)
    (ho : s.outMessageBuffer.length = WRITE_MESSAGE_BUFFER_SIZE)
    (hw : s.writeBuffer.length = WRITE_BUFFER_SIZE) :
    writeMessage P (P.length : Int) s = .ok (s.afterSend P) := by
  unfold Sender.afterSend
  obtain ⟨out, wb, wr⟩ := s
  simp only [WRITE_MESSAGE_BUFFER_SIZE, WRITE_BUFFER_SIZE] at ho hw
  match out, ho with
  | o0 :: orest, ho =>
    have ho1 : orest.length = 253 := by simpa using ho
    have hwl : (((P.length : Int) + 1) % 256).toNat = P.length + 1 := by omega
    have hn : ((P.length : Nat) : Int).toNat = P.length := by simp
    have hs0 : store (o0 :: orest) 0 (P.length + 1) = .ok ((P.length + 1) :: orest) := by
      simp [store]
    have hcp := copyPayload_spec P P ((P.length + 1) :: orest) [] [] [P.length + 1]
      (orest.take P.length) (orest.drop P.length) 0 (by simp) rfl
      (by simp) (by simp) (by rw [List.length_take]; omega)
    have hst := stuffData_spec ((P.length + 1) :: P) (orest.drop P.length) wb
      (by simp; omega) (by simp; omega)
    have hlen : ((P.length + 1 : Nat) : Int) + 2 = ((P.length + 3 : Nat) : Int) := by
      push_cast; ring
    have e3 : P.length + 1 + 2 = P.length + 3 := rfl
    simp only [List.length_cons, List.singleton_append, List.cons_append, List.nil_append,
      List.append_assoc, e3] at hcp hst
    simp only [writeMessage, hwl, hn, hs0, ok_bind, hcp, hst, hlen, writeComm, Int.toNat_ofNat]
    rw [if_pos (by simp [cobs_length]; omega), take_frame_append]
    simp

/-! ## What `readMessage` computes -/

theorem loadInt_pred (buf : List Nat) (n : Nat) :
    loadInt buf (((n + 1 : Nat) : Int) - 1) = load buf n := by
  have h : (((n + 1 : Nat) : Int) - 1) = (n : Int) := by push_cast; ring
  rw [h]
  simp [loadInt]

/-- A non-zero byte received while fewer than 255 bytes are accumulated is
appended to the accumulator. -/
theorem readByte_nonzero (b : Nat) (s : Receiver) (acc : List Nat) (t : Nat) (rest : List Nat)
    (hb : b < 256) (hb0 : b ≠ 0) (hrb : s.readBuffer = acc ++ t :: rest)
    (hrl : s.readLen = acc.length) (hacc : acc.length ≤ 254) :
    readByte b s = .ok { s with readBuffer := acc ++ b :: rest, readLen := acc.length + 1 } := by
  have hm : (acc.length + 1) % 256 = acc.length + 1 := Nat.mod_eq_of_lt (by omega)
  have hbm : b % 256 = b := Nat.mod_eq_of_lt hb
  simp only [readByte, hrb, hrl, hm, hbm, store_append, ok_bind, loadInt_pred, load_append,
    hb0, if_false, pure_eq_ok]

theorem readMessage_nonzero (G : List Nat) :
    ∀ (s : Receiver) (acc mid tail : List Nat), s.readBuffer = acc ++ mid ++ tail →
      s.readLen = acc.length → mid.length = G.length → acc.length + G.length ≤ 255 →
      Bytes G → (∀ b ∈ G, b ≠ 0) →
      readMessage G s
        = .ok { s with readBuffer := acc ++ G ++ tail, readLen := acc.length + G.length } := by
  induction G with
  | nil =>
    intro s acc mid tail hrb hrl hm _ _ _
    have : mid = [] := List.length_eq_zero.mp hm
    obtain ⟨i, rb, rl, pa⟩ := s
    simp only at hrb hrl
    simp [readMessage, this, hrb, hrl] at *
  | cons b G ih =>
    intro s acc mid tail hrb hrl hm hlen hby hnz
    match mid, hm with
    | t :: mid1, hm =>
      have hl : mid1.length = G.length := by simpa using hm
      simp only [List.length_cons] at hlen
      have h1 := readByte_nonzero b s acc t (mid1 ++ tail) (hby b (by simp)) (hnz b (by simp))
        (by simp [hrb]) hrl (by omega)
      simp only [readMessage, h1, ok_bind]
      rw [ih _ (acc ++ [b]) mid1 tail (by simp) (by simp) hl (by simp; omega)
        (fun x hx => hby x (by simp [hx])) (fun x hx => hnz x (by simp [hx]))]
      simp; omega

theorem readMessage_append (a b : List Nat) :
    ∀ s : Receiver, readMessage (a ++ b) s = (readMessage a s >>= readMessage b) := by
  induction a with
  | nil => intro s; simp [readMessage]
  | cons x a ih =>
    intro s
    rw [List.cons_append]
    simp only [readMessage]
    cases readByte x s with
    | error e => rfl
    | ok s1 => simp only [ok_bind, ih]

/-- The terminator received after the stuffed form of `X`: `unStuffData` decodes
`X`, `parseMessage` is called with length `X.length`, the accumulator is reset. -/
theorem readByte_terminator (X : List Nat) (s : Receiver) (t : Nat) (rest dmid dtail : List Nat)
    (hX : X.length ≤ 253) (hrb : s.readBuffer = cobs X ++ t :: rest)
    (hrl : s.readLen = X.length + 1) (hin : s.inMessageBuffer = dmid ++ dtail)
    (hd : dmid.length = X.length + 1) :
    readByte 0 s
      = .ok { inMessageBuffer := X ++ 0 :: dtail, readBuffer := cobs X ++ 0 :: rest,
              readLen := 0,
              parsed := s.parsed ++ [{ data := X ++ 0 :: dtail, len := (X.length : Int) }] } := by
  have hm : (X.length + 1 + 1) % 256 = X.length + 2 := Nat.mod_eq_of_lt (by omega)
  have hl : X.length + 1 = (cobs X).length := (cobs_length X).symm
  have hu := unStuffData_cobs X (0 :: rest) dmid dtail hX hd
  have hlen : (((X.length + 2 : Nat) : Int) - 2) = (X.length : Int) := by push_cast; ring
  simp only [readByte, hrb, hrl, hin, Nat.zero_mod]
  rw [hm]
  nth_rewrite 1 [hl]
  rw [store_append, ok_bind]
  have hli : loadInt (cobs X ++ 0 :: rest) (((X.length + 2 : Nat) : Int) - 1) = .ok 0 := by
    have := loadInt_pred (cobs X ++ 0 :: rest) (X.length + 1)
    rw [this, hl, load_append]
  simp only [hli, ok_bind, if_true, hu, pure_eq_ok, hlen]

/-- Receiving the stuffed form of `X` and its terminator, starting from an empty
accumulator. -/
theorem readMessage_cobs (X : List Nat) (s : Receiver) (hX : X.length ≤ 253) (hb : Bytes X)
    (hrl : s.readLen = 0) (hrb : s.readBuffer.length = READ_BUFFER_SIZE)
    (hin : s.inMessageBuffer.length = READ_MESSAGE_BUFFER_SIZE) :
    readMessage (cobs X ++ [0]) s
      = .ok { inMessageBuffer := X ++ 0 :: s.inMessageBuffer.drop (X.length + 1),
              readBuffer := cobs X ++ 0 :: s.readBuffer.drop (X.length + 2),
              readLen := 0,
              parsed := s.parsed ++ [{ data := X ++ 0 :: s.inMessageBuffer.drop (X.length + 1),
                                       len := (X.length : Int) }] } := by
  simp only [READ_BUFFER_SIZE, READ_MESSAGE_BUFFER_SIZE] at hrb hin
  have hcl := cobs_length X
  obtain ⟨m1, t, m2, hsplit, hm1, _⟩ := split_at s.readBuffer (X.length + 1) (by omega)
  have hacc := readMessage_nonzero (cobs X) s [] m1 (t :: m2) (by simp [hsplit]) (by simp [hrl])
    (by rw [hm1, hcl]) (by simp [hcl]; omega) (cobs_bytes X hb) (cobs_nonzero X (by omega))
  rw [readMessage_append, hacc, ok_bind]
  simp only [List.nil_append, List.length_nil, Nat.zero_add, hcl]
  have hdrop : s.readBuffer.drop (X.length + 2) = m2 := by
    rw [hsplit]
    have : X.length + 2 = (m1 ++ [t]).length := by simp [hm1]
    have e : m1 ++ t :: m2 = (m1 ++ [t]) ++ m2 := by simp
    rw [this, e, List.drop_left]
  have hterm := readByte_terminator X
    { s with readBuffer := cobs X ++ t :: m2, readLen := X.length + 1 } t m2
    (s.inMessageBuffer.take (X.length + 1)) (s.inMessageBuffer.drop (X.length + 1)) hX rfl rfl
    (by simp) (by rw [List.length_take]; omega)
  simp only [readMessage, hterm, ok_bind, pure_eq_ok, hdrop]

/-- Receiving the frame of a payload of at most 252 bytes, starting from an
empty accumulator. -/
theorem readMessage_frame (P : List Nat) (s : Receiver) (hP : P.length ≤ 252) (hb : Bytes P)
    (hrl : s.readLen = 0) (hrb : s.readBuffer.length = READ_BUFFER_SIZE)
    (hin : s.inMessageBuffer.length = READ_MESSAGE_BUFFER_SIZE) :
    readMessage (frame P) s = .ok (s.afterFrame P) := by
  unfold Receiver.afterFrame Receiver.decoded
  have hbx : Bytes ((P.length + 1) :: P) := by
    intro b hb1
    rcases List.mem_cons.mp hb1 with rfl | h
    · omega
    · exact hb b h
  have h := readMessage_cobs ((P.length + 1) :: P) s (by simp; omega) hbx hrl hrb hin
  simp only [List.length_cons] at h
  rw [frame, h]
  simp

/-- The 256th byte received without a terminator: `readLen++` wraps to 0 and
the terminator test reads `readBuffer[-1]`. -/
theorem readMessage_wrap (G : List Nat) (b : Nat) (rest : List Nat) (r : Receiver)
    (hG : G.length = 255) (hb : Bytes G) (hnz : ∀ x ∈ G, x ≠ 0) (hrl : r.readLen = 0)
    (hrb : r.readBuffer.length = READ_BUFFER_SIZE) :
    readMessage (G ++ b :: rest) r = .error .outOfBounds := by
  simp only [READ_BUFFER_SIZE] at hrb
  have h := readMessage_nonzero G r [] (r.readBuffer.take G.length)
    (r.readBuffer.drop G.length) (by simp) (by simp [hrl])
    (by rw [List.length_take]; omega) (by simp; omega) hb hnz
  simp only [List.nil_append, List.length_nil, Nat.zero_add] at h
  rw [readMessage_append, h, ok_bind]
  have hlt : G.length < (G ++ r.readBuffer.drop G.length).length := by simp; omega
  have hm : (G.length + 1) % 256 = 0 := by simp [hG]
  simp only [readMessage, readByte, store, hlt, if_true, ok_bind, hm]
  rfl

/-! ## Facts about frames and about sequences of calls -/

theorem frame_count_zero (P : List Nat) (hP : P.length ≤ 253) : (frame P).count 0 = 1 := by
  have h : ¬ (0 ∈ cobs ((P.length + 1) :: P)) := fun h0 =>
    cobs_nonzero ((P.length + 1) :: P) (by simp; omega) 0 h0 rfl
  simp [frame, List.count_append, List.count_eq_zero.mpr h]

theorem frame_getLast (P : List Nat) : (frame P).getLast? = some 0 := by
  simp [frame]

theorem frame_bytes (P : List Nat) (hP : P.length ≤ 254) (hb : Bytes P) : Bytes (frame P) := by
  have hbx : Bytes ((P.length + 1) :: P) := by
    intro b hb1
    rcases List.mem_cons.mp hb1 with rfl | h
    · omega
    · exact hb b h
  intro b hb1
  rcases List.mem_append.mp hb1 with h | h
  · exact cobs_bytes _ hbx b h
  · simp at h; omega

theorem readMessages_eq (chunks : List (List Nat)) :
    ∀ s : Receiver, readMessages chunks s = readMessage chunks.flatten s := by
  induction chunks with
  | nil => intro s; simp [readMessages, readMessage]
  | cons c cs ih =>
    intro s
    simp only [readMessages, List.flatten_cons, readMessage_append]
    cases readMessage c s with
    | error e => rfl
    | ok s1 => simp only [ok_bind, ih]

theorem readMessage_prefix_ok (a b : List Nat) (s s2 : Receiver)
    (h : readMessage (a ++ b) s = .ok s2) : ∃ s1, readMessage a s = .ok s1 := by
  rw [readMessage_append] at h
  cases h1 : readMessage a s with
  | error e => rw [h1] at h; cases h
  | ok s1 => exact ⟨s1, rfl⟩

/-- One iteration of `readMessage` calls `parseMessage` exactly when the byte
read is zero, and keeps `readLen` an `unsigned char`. -/
theorem readByte_parsed (b : Nat) (s s1 : Receiver) (hrl : s.readLen < 256)
    (h : readByte b s = .ok s1) :
    s1.readLen < 256 ∧
      s1.parsed.length = s.parsed.length + (if b % 256 = 0 then 1 else 0) := by
  unfold readByte at h
  by_cases hb : s.readLen < s.readBuffer.length
  · simp only [store, hb, if_true, ok_bind] at h
    by_cases hw : s.readLen + 1 < 256
    · have hm : (s.readLen + 1) % 256 = s.readLen + 1 := Nat.mod_eq_of_lt hw
      have hl : load (s.readBuffer.set s.readLen (b % 256)) s.readLen = .ok (b % 256) := by
        simp [load, hb]
      rw [hm, loadInt_pred, hl, ok_bind] at h
      by_cases hz : b % 256 = 0
      · simp only [hz, if_true] at h ⊢
        cases hu : unStuffData (s.readBuffer.set s.readLen 0) (s.readLen + 1) s.inMessageBuffer with
        | error e => rw [hu] at h; cases h
        | ok u =>
          rw [hu] at h
          simp only [ok_bind, pure_eq_ok, Except.ok.injEq] at h
          subst h
          simp
      · simp only [hz, if_false, pure_eq_ok, Except.ok.injEq] at h ⊢
        subst h
        simp; omega
    · have hm : (s.readLen + 1) % 256 = 0 := by omega
      rw [hm] at h
      simp [loadInt] at h
  · simp [store, hb] at h

theorem readByte_length (b : Nat) (s s1 : Receiver) (h : readByte b s = .ok s1) :
    s1.readBuffer.length = s.readBuffer.length := by
  unfold readByte at h
  by_cases hb : s.readLen < s.readBuffer.length
  · simp only [store, hb, if_true, ok_bind] at h
    cases hl : loadInt (s.readBuffer.set s.readLen (b % 256)) ((((s.readLen + 1) % 256 : Nat) : Int) - 1) with
    | error e => rw [hl] at h; cases h
    | ok v =>
      rw [hl, ok_bind] at h
      by_cases hz : v = 0
      · simp only [hz, if_true] at h
        cases hu : unStuffData (s.readBuffer.set s.readLen (b % 256)) ((s.readLen + 1) % 256)
            s.inMessageBuffer with
        | error e => rw [hu] at h; cases h
        | ok u =>
          rw [hu] at h
          simp only [ok_bind, pure_eq_ok, Except.ok.injEq] at h
          subst h
          simp
      · simp only [hz, if_false, pure_eq_ok, Except.ok.injEq] at h
        subst h
        simp
  · simp [store, hb] at h

theorem readMessage_length (l : List Nat) :
    ∀ (s s1 : Receiver), readMessage l s = .ok s1 →
      s1.readBuffer.length = s.readBuffer.length := by
  induction l with
  | nil =>
    intro s s1 h
    simp only [readMessage, pure_eq_ok, Except.ok.injEq] at h
    subst h
    rfl
  | cons b l ih =>
    intro s s1 h
    simp only [readMessage] at h
    cases h1 : readByte b s with
    | error e => rw [h1] at h; cases h
    | ok s2 =>
      rw [h1, ok_bind] at h
      rw [ih s2 s1 h, readByte_length b s s2 h1]

theorem readMessage_parsed (l : List Nat) :
    ∀ (s s1 : Receiver), s.readLen < 256 → readMessage l s = .ok s1 →
      s1.readLen < 256 ∧
        s1.parsed.length = s.parsed.length + l.countP (fun b => b % 256 = 0) := by
  induction l with
  | nil =>
    intro s s1 hrl h
    simp only [readMessage, pure_eq_ok, Except.ok.injEq] at h
    subst h
    simp [hrl]
  | cons b l ih =>
    intro s s1 hrl h
    simp only [readMessage] at h
    cases h1 : readByte b s with
    | error e => rw [h1] at h; cases h
    | ok s2 =>
      rw [h1, ok_bind] at h
      obtain ⟨h2, h3⟩ := readByte_parsed b s s2 hrl h1
      obtain ⟨h4, h5⟩ := ih s2 s1 h2 h
      refine ⟨h4, ?_⟩
      rw [h5, h3, List.countP_cons]
      by_cases hz : b % 256 = 0 <;> simp [hz]; omega

theorem countP_zero_of_bytes (l : List Nat) (hb : Bytes l) :
    l.countP (fun b => b % 256 = 0) = l.count 0 := by
  induction l with
  | nil => rfl
  | cons x l ih =>
    have hx : x < 256 := hb x (by simp)
    have hl : Bytes l := fun b h => hb b (by simp [h])
    rw [List.countP_cons, List.count_cons, ih hl]
    have hm : x % 256 = x := Nat.mod_eq_of_lt hx
    by_cases hz : x = 0 <;> simp [hz, hm]

theorem afterSend_sized (s : Sender) (P : List Nat) (hP : P.length ≤ 253)
    (ho : s.outMessageBuffer.length = WRITE_MESSAGE_BUFFER_SIZE)
    (hw : s.writeBuffer.length = WRITE_BUFFER_SIZE) :
    (s.afterSend P).outMessageBuffer.length = WRITE_MESSAGE_BUFFER_SIZE ∧
      (s.afterSend P).writeBuffer.length = WRITE_BUFFER_SIZE := by
  simp only [WRITE_MESSAGE_BUFFER_SIZE, WRITE_BUFFER_SIZE] at ho hw ⊢
  constructor
  · simp [Sender.afterSend]; omega
  · simp [Sender.afterSend, cobs_length]; omega

theorem afterFrame_sized (r : Receiver) (P : List Nat) (hP : P.length ≤ 252)
    (hrb : r.readBuffer.length = READ_BUFFER_SIZE)
    (hin : r.inMessageBuffer.length = READ_MESSAGE_BUFFER_SIZE) :
    (r.afterFrame P).readBuffer.length = READ_BUFFER_SIZE ∧
      (r.afterFrame P).inMessageBuffer.length = READ_MESSAGE_BUFFER_SIZE := by
  simp only [READ_BUFFER_SIZE, READ_MESSAGE_BUFFER_SIZE] at hrb hin ⊢
  constructor
  · simp [Receiver.afterFrame, cobs_length]; omega
  · simp [Receiver.afterFrame, Receiver.decoded]; omega

theorem decoded_delivers (r : Receiver) (P : List Nat) :
    Delivers P { data := r.decoded P, len := (P.length : Int) + 1 } := by
  refine ⟨rfl, ?_⟩
  have e : r.decoded P = ((P.length + 1) :: P) ++ 0 :: r.inMessageBuffer.drop (P.length + 2) := by
    simp [Receiver.decoded]
  have l : P.length + 1 = ((P.length + 1) :: P).length := by simp
  simp only []
  rw [e]
  nth_rewrite 1 [l]
  rw [List.take_left]

theorem sendAll_spec (Ps : List (List Nat)) :
    ∀ s : Sender, (∀ P ∈ Ps, P.length ≤ 253) →
      s.outMessageBuffer.length = WRITE_MESSAGE_BUFFER_SIZE →
      s.writeBuffer.length = WRITE_BUFFER_SIZE →
      ∃ s1, sendAll Ps s = .ok s1 ∧ s1.written = s.written ++ Ps.map frame := by
  induction Ps with
  | nil => intro s _ _ _; exact ⟨s, rfl, by simp⟩
  | cons P Ps ih =>
    intro s hP ho hw
    have hP1 : P.length ≤ 253 := hP P (by simp)
    have h1 := writeMessage_spec P s hP1 ho hw
    obtain ⟨h4, h5⟩ := afterSend_sized s P hP1 ho hw
    obtain ⟨s1, h2, h3⟩ := ih (s.afterSend P) (fun Q hQ => hP Q (by simp [hQ])) h4 h5
    refine ⟨s1, ?_, ?_⟩
    · simp only [sendAll, h1, ok_bind, h2]
    · rw [h3]; simp [Sender.afterSend]

/-- Receiving the frames of a list of payloads, each of at most 252 bytes,
starting from an empty accumulator: one `parseMessage` call per payload, in
order. -/
theorem readMessage_frames (Ps : List (List Nat)) :
    ∀ r : Receiver, (∀ P ∈ Ps, P.length ≤ 252 ∧ Bytes P) → r.readLen = 0 →
      r.readBuffer.length = READ_BUFFER_SIZE →
      r.inMessageBuffer.length = READ_MESSAGE_BUFFER_SIZE →
      ∃ r1 calls, readMessage (Ps.map frame).flatten r = .ok r1 ∧ r1.readLen = 0 ∧
        r1.readBuffer.length = READ_BUFFER_SIZE ∧
        r1.inMessageBuffer.length = READ_MESSAGE_BUFFER_SIZE ∧
        r1.parsed = r.parsed ++ calls ∧ List.Forall₂ Delivers Ps calls := by
  induction Ps with
  | nil =>
    intro r _ hrl hrb hin
    exact ⟨r, [], rfl, hrl, hrb, hin, by simp, List.Forall₂.nil⟩
  | cons P Ps ih =>
    intro r hP hrl hrb hin
    obtain ⟨hP1, hP2⟩ := hP P (by simp)
    have h1 := readMessage_frame P r hP1 hP2 hrl hrb hin
    obtain ⟨h8, h9⟩ := afterFrame_sized r P hP1 hrb hin
    obtain ⟨r1, calls, h2, h3, h4, h5, h6, h7⟩ :=
      ih (r.afterFrame P) (fun Q hQ => hP Q (by simp [hQ])) rfl h8 h9
    refine ⟨r1, { data := r.decoded P, len := (P.length : Int) + 1 } :: calls, ?_, h3, h4, h5,
      ?_, List.Forall₂.cons (decoded_delivers r P) h7⟩
    · simp only [List.map_cons, List.flatten_cons, readMessage_append, h1, ok_bind, h2]
    · rw [h6]; simp [Receiver.afterFrame]

/-! ## Claim C1: the round-trip law -/

set_option maxRecDepth 100000

/-- Claim C1, as amended.  For every byte sequence `X` of length 0 to 253, held
at the start of any source array: `stuffData` succeeds on any destination of at
least `X.length + 2` bytes, and `unStuffData`, run with length argument
`X.length + 2` on an array that starts with the `X.length + 2` bytes written,
reads `X.length + 1` bytes and writes exactly `X` followed by one zero byte to
the start of its destination, leaving the rest of the destination as it was. -/
theorem C1_roundtrip (X rest dst rest2 dst2 : List Nat) (hX : X.length ≤ 253)
    (hd : X.length + 2 ≤ dst.length) (hd2 : X.length + 1 ≤ dst2.length) :
    ∃ W, stuffData (X ++ rest) X.length dst = .ok W ∧
      unStuffData (W.take (X.length + 2) ++ rest2) (X.length + 2) dst2
        = .ok { ptr := X.length + 1, dstp := X.length + 1,
                dst := X ++ 0 :: dst2.drop (X.length + 1) } := by
  refine ⟨_, stuffData_spec X rest dst (by omega) hd, ?_⟩
  have ht : (cobs X ++ 0 :: dst.drop (X.length + 2)).take (X.length + 2) = cobs X ++ [0] := by
    rw [List.take_append_eq_append_take]
    simp [cobs_length]
  rw [ht, List.append_assoc]
  have h := unStuffData_cobs X ([0] ++ rest2) (dst2.take (X.length + 1))
    (dst2.drop (X.length + 1)) hX (by rw [List.length_take]; omega)
  rw [List.take_append_drop] at h
  rw [h]

/-- Witness of `C1_roundtrip` at `X = [5, 0, 7]` (scenario B of the
specification). -/
theorem C1_roundtrip_witness :
    ([5, 0, 7].length ≤ 253 ∧ [5, 0, 7].length + 2 ≤ (List.replicate 8 1).length ∧
      [5, 0, 7].length + 1 ≤ (List.replicate 6 2).length) ∧
    ∃ W, stuffData ([5, 0, 7] ++ [9]) [5, 0, 7].length (List.replicate 8 1) = .ok W ∧
      unStuffData (W.take ([5, 0, 7].length + 2) ++ []) ([5, 0, 7].length + 2)
          (List.replicate 6 2)
        = .ok { ptr := [5, 0, 7].length + 1, dstp := [5, 0, 7].length + 1,
                dst := [5, 0, 7] ++ 0 :: (List.replicate 6 2).drop ([5, 0, 7].length + 1) } :=
  ⟨by decide, C1_roundtrip [5, 0, 7] [9] (List.replicate 8 1) [] (List.replicate 6 2)
    (by decide) (by decide) (by decide)⟩

/-- Counterexample to claim C1 at length 254.  For `X` = 254 bytes `0x01`,
`stuffData` writes 256 bytes; the length argument 256 of `unStuffData` is
narrowed to `unsigned char` 0, its loop is not entered, nothing is written, and
the destination does not hold `X`. -/
theorem C1_counterexample :
    ∃ W u, stuffData (List.replicate 254 1) 254 (List.replicate 256 0) = .ok W ∧
      unStuffData (W.take (254 + 2)) (254 + 2) (List.replicate 255 0) = .ok u ∧
      u.dstp = 0 ∧ u.dst.take 254 ≠ List.replicate 254 1 := by
  have h := stuffData_spec (List.replicate 254 1) [] (List.replicate 256 0)
    (by simp) (by simp)
  simp only [List.append_nil, List.length_replicate] at h
  refine ⟨_, _, h, rfl, rfl, ?_⟩
  decide

/-! ## Claim C2: no embedded terminators -/

/-- Claim C2.  For every payload `P` (0 to 253 bytes, the payload range of the
data model), `writeMessage` builds the pre-stuffed buffer `[len+1] ++ P` at the
start of `outMessageBuffer`, and what `stuffData` writes for it into
`writeBuffer` is exactly `len + 3` bytes long (the bytes after them are left as
they were), contains exactly one zero byte, and that byte is the last one. -/
theorem C2_no_embedded_terminators (P : List Nat) (s : Sender) (hP : P.length ≤ 253)
    (ho : s.outMessageBuffer.length = WRITE_MESSAGE_BUFFER_SIZE)
    (hw : s.writeBuffer.length = WRITE_BUFFER_SIZE) :
    ∃ s1 out, writeMessage P (P.length : Int) s = .ok s1 ∧
      s1.outMessageBuffer.take (P.length + 1) = (P.length + 1) :: P ∧
      stuffData s1.outMessageBuffer (P.length + 1) s.writeBuffer = .ok s1.writeBuffer ∧
      s1.writeBuffer = out ++ s.writeBuffer.drop (P.length + 3) ∧
      out.length = P.length + 3 ∧ out.count 0 = 1 ∧ out.getLast? = some 0 := by
  simp only [WRITE_BUFFER_SIZE] at hw
  refine ⟨s.afterSend P, frame P, writeMessage_spec P s hP ho hw, ?_, ?_, ?_,
    frame_length P, frame_count_zero P hP, frame_getLast P⟩
  · have l : P.length + 1 = ((P.length + 1) :: P).length := by simp
    have e : (s.afterSend P).outMessageBuffer
        = ((P.length + 1) :: P) ++ s.outMessageBuffer.drop (P.length + 1) := by
      simp [Sender.afterSend]
    rw [e]
    nth_rewrite 1 [l]
    rw [List.take_left]
  · have h := stuffData_spec ((P.length + 1) :: P) (s.outMessageBuffer.drop (P.length + 1))
      s.writeBuffer (by simp; omega) (by simp; omega)
    simp only [List.length_cons] at h
    simpa [Sender.afterSend] using h
  · simp [Sender.afterSend, frame]

/-- Witness of `C2_no_embedded_terminators` at the payload `[5, 0, 7]`. -/
theorem C2_no_embedded_terminators_witness :
    [5, 0, 7].length ≤ 253 ∧
    ∃ s1 out, writeMessage [5, 0, 7] ([5, 0, 7].length : Int) Sender.start = .ok s1 ∧
      s1.outMessageBuffer.take ([5, 0, 7].length + 1) = ([5, 0, 7].length + 1) :: [5, 0, 7] ∧
      stuffData s1.outMessageBuffer ([5, 0, 7].length + 1) Sender.start.writeBuffer
        = .ok s1.writeBuffer ∧
      s1.writeBuffer = out ++ Sender.start.writeBuffer.drop ([5, 0, 7].length + 3) ∧
      out.length = [5, 0, 7].length + 3 ∧ out.count 0 = 1 ∧ out.getLast? = some 0 :=
  ⟨by decide, C2_no_embedded_terminators [5, 0, 7] Sender.start (by decide) (by decide)
    (by decide)⟩

/-! ## Claim C3: end-to-end delivery -/

/-- Claim C3, as amended.  For every payload `P` of 0 to 252 bytes, when the
frame `writeMessage(P, |P|)` hands to the transport is fed to `readMessage`
starting from `readLen = 0`, `parseMessage` is called once, with `len = |P| + 1`
and a buffer that starts with `[|P| + 1] ++ P ++ [0]`: the length-prefix byte is
still there and is counted in `len`, only the reconstructed zero is not. -/
theorem C3_end_to_end (P : List Nat) (s : Sender) (r : Receiver) (hP : P.length ≤ 252)
    (hb : Bytes P) (ho : s.outMessageBuffer.length = WRITE_MESSAGE_BUFFER_SIZE)
    (hw : s.writeBuffer.length = WRITE_BUFFER_SIZE) (hrl : r.readLen = 0)
    (hrb : r.readBuffer.length = READ_BUFFER_SIZE)
    (hin : r.inMessageBuffer.length = READ_MESSAGE_BUFFER_SIZE) :
    ∃ s1 F r1 c, writeMessage P (P.length : Int) s = .ok s1 ∧ s1.written = s.written ++ [F] ∧
      readMessage F r = .ok r1 ∧ r1.parsed = r.parsed ++ [c] ∧ r1.readLen = 0 ∧
      c.len = (P.length : Int) + 1 ∧ c.data.take (P.length + 2) = (P.length + 1) :: P ++ [0] := by
  refine ⟨s.afterSend P, frame P, r.afterFrame P,
    { data := r.decoded P, len := (P.length : Int) + 1 },
    writeMessage_spec P s (by omega) ho hw, rfl, readMessage_frame P r hP hb hrl hrb hin,
    rfl, rfl, rfl, ?_⟩
  have e : r.decoded P = ((P.length + 1) :: P ++ [0]) ++ r.inMessageBuffer.drop (P.length + 2) := by
    simp [Receiver.decoded]
  have l : P.length + 2 = ((P.length + 1) :: P ++ [0]).length := by simp
  simp only []
  rw [e]
  nth_rewrite 1 [l]
  rw [List.take_left]

/-- Witness of `C3_end_to_end` at the payload `[1, 2]` (scenario A). -/
theorem C3_end_to_end_witness :
    ([1, 2].length ≤ 252 ∧ Bytes [1, 2]) ∧
    ∃ s1 F r1 c, writeMessage [1, 2] ([1, 2].length : Int) Sender.start = .ok s1 ∧
      s1.written = Sender.start.written ++ [F] ∧
      readMessage F Receiver.start = .ok r1 ∧ r1.parsed = Receiver.start.parsed ++ [c] ∧
      r1.readLen = 0 ∧ c.len = ([1, 2].length : Int) + 1 ∧
      c.data.take ([1, 2].length + 2) = ([1, 2].length + 1) :: [1, 2] ++ [0] :=
  ⟨by decide, C3_end_to_end [1, 2] Sender.start Receiver.start (by decide) (by decide)
    (by decide) (by decide) (by decide) (by decide) (by decide)⟩

/-- Counterexample to claim C3 at the payload `[0x01, 0x02]` (scenario A).  The
frame on the wire is `[4, 3, 1, 2, 0]`; on its terminator `parseMessage` is
called with `len = 3`, not 2, and its buffer starts with `[3, 1, 2, 0]`: the
length-prefix byte 3 is not stripped. -/
theorem C3_counterexample :
    (writeMessage [1, 2] 2 Sender.start).map (fun s => s.written) = .ok [[4, 3, 1, 2, 0]] ∧
    (readMessage [4, 3, 1, 2, 0] Receiver.start).map
        (fun r => r.parsed.map (fun c => (c.data.take 4, c.len)))
      = .ok [([3, 1, 2, 0], 3)] := by
  decide

/-! ## Claim C4: incremental equivalence -/

/-- Claim C4.  For every payload `P` of 0 to 252 bytes and every receiver with
`readLen = 0`, feeding the frame `writeMessage` produces for `P` to
`readMessage` one byte per call ends in the same state (same `parseMessage`
calls with the same buffer contents and length argument, same `readLen`, same
buffers) as feeding it in a single call, and that state has one call more. -/
theorem C4_incremental (P : List Nat) (s : Sender) (r : Receiver) (hP : P.length ≤ 252)
    (hb : Bytes P) (ho : s.outMessageBuffer.length = WRITE_MESSAGE_BUFFER_SIZE)
    (hw : s.writeBuffer.length = WRITE_BUFFER_SIZE) (hrl : r.readLen = 0)
    (hrb : r.readBuffer.length = READ_BUFFER_SIZE)
    (hin : r.inMessageBuffer.length = READ_MESSAGE_BUFFER_SIZE) :
    ∃ s1 F r1, writeMessage P (P.length : Int) s = .ok s1 ∧ s1.written = s.written ++ [F] ∧
      readMessages (F.map (fun b => [b])) r = .ok r1 ∧ readMessage F r = .ok r1 ∧
      r1.parsed.length = r.parsed.length + 1 ∧ r1.readLen = 0 := by
  refine ⟨s.afterSend P, frame P, r.afterFrame P, writeMessage_spec P s (by omega) ho hw, rfl,
    ?_, readMessage_frame P r hP hb hrl hrb hin, by simp [Receiver.afterFrame], rfl⟩
  have hf : ((frame P).map (fun b => [b])).flatten = frame P := by
    induction frame P with
    | nil => rfl
    | cons x l ih => simp [ih]
  rw [readMessages_eq, hf]
  exact readMessage_frame P r hP hb hrl hrb hin

/-- Witness of `C4_incremental` at the payload `[5, 0, 7]`. -/
theorem C4_incremental_witness :
    ([5, 0, 7].length ≤ 252 ∧ Bytes [5, 0, 7]) ∧
    ∃ s1 F r1, writeMessage [5, 0, 7] ([5, 0, 7].length : Int) Sender.start = .ok s1 ∧
      s1.written = Sender.start.written ++ [F] ∧
      readMessages (F.map (fun b => [b])) Receiver.start = .ok r1 ∧
      readMessage F Receiver.start = .ok r1 ∧
      r1.parsed.length = Receiver.start.parsed.length + 1 ∧ r1.readLen = 0 :=
  ⟨by decide, C4_incremental [5, 0, 7] Sender.start Receiver.start (by decide) (by decide)
    (by decide) (by decide) (by decide) (by decide) (by decide)⟩

/-! ## Claim C5: once per frame, in order -/

/-- Claim C5.  For every list of payloads `Ps` (each of 0 to 252 bytes), the
frames `writeMessage` produces for them, fed to `readMessage` from
`readLen = 0` in any split `chunks` across calls, make `parseMessage` be called
once per payload, in order, the call for `P` with `len = |P| + 1` and a buffer
that starts with `[|P| + 1] ++ P`; `readLen` is 0 at the end.  Every frame holds
exactly one zero byte, its last, and after any prefix of the stream the number
of calls made is the number of zero bytes received: no call is made on a byte
that is not a frame terminator. -/
theorem C5_once_per_frame (Ps : List (List Nat)) (s : Sender) (r : Receiver)
    (hP : ∀ P ∈ Ps, P.length ≤ 252 ∧ Bytes P)
    (ho : s.outMessageBuffer.length = WRITE_MESSAGE_BUFFER_SIZE)
    (hw : s.writeBuffer.length = WRITE_BUFFER_SIZE) (hrl : r.readLen = 0)
    (hrb : r.readBuffer.length = READ_BUFFER_SIZE)
    (hin : r.inMessageBuffer.length = READ_MESSAGE_BUFFER_SIZE) :
    ∃ s1 frames, sendAll Ps s = .ok s1 ∧ s1.written = s.written ++ frames ∧
      frames.length = Ps.length ∧
      (∀ F ∈ frames, F.count 0 = 1 ∧ F.getLast? = some 0) ∧
      ∀ chunks : List (List Nat), chunks.flatten = frames.flatten →
        (∃ r1 calls, readMessages chunks r = .ok r1 ∧ r1.readLen = 0 ∧
          r1.parsed = r.parsed ++ calls ∧ calls.length = Ps.length ∧
          List.Forall₂ Delivers Ps calls) ∧
        ∀ pre suf : List Nat, pre ++ suf = frames.flatten →
          ∃ r2, readMessage pre r = .ok r2 ∧
            r2.parsed.length = r.parsed.length + pre.count 0 := by
  have hP3 : ∀ P ∈ Ps, P.length ≤ 253 := fun P h => by have := (hP P h).1; omega
  obtain ⟨s1, h1, h2⟩ := sendAll_spec Ps s hP3 ho hw
  obtain ⟨r1, calls, h3, h4, _, _, h5, h6⟩ := readMessage_frames Ps r hP hrl hrb hin
  refine ⟨s1, Ps.map frame, h1, h2, by simp, ?_, ?_⟩
  · intro F hF
    obtain ⟨P, hPm, rfl⟩ := List.mem_map.mp hF
    exact ⟨frame_count_zero P (hP3 P hPm), frame_getLast P⟩
  · intro chunks hc
    refine ⟨⟨r1, calls, ?_, h4, h5, h6.length_eq.symm, h6⟩, ?_⟩
    · rw [readMessages_eq, hc, h3]
    · intro pre suf hps
      rw [← hps] at h3
      obtain ⟨r2, h7⟩ := readMessage_prefix_ok pre suf r r1 h3
      have hby : Bytes pre := by
        intro b hb
        have hm : b ∈ (Ps.map frame).flatten := by rw [← hps]; simp [hb]
        obtain ⟨F, hF, hbF⟩ := List.mem_flatten.mp hm
        obtain ⟨P, hPm, rfl⟩ := List.mem_map.mp hF
        exact frame_bytes P (by have := hP3 P hPm; omega) (hP P hPm).2 b hbF
      refine ⟨r2, h7, ?_⟩
      rw [(readMessage_parsed pre r r2 (by omega) h7).2, countP_zero_of_bytes pre hby]

/-- Witness of `C5_once_per_frame` for the payloads `[1, 2]`, `[]`, `[5, 0, 7]`. -/
theorem C5_once_per_frame_witness :
    (∀ P ∈ [[1, 2], [], [5, 0, 7]], P.length ≤ 252 ∧ Bytes P) ∧
    ∃ s1 frames, sendAll [[1, 2], [], [5, 0, 7]] Sender.start = .ok s1 ∧
      s1.written = Sender.start.written ++ frames ∧
      frames.length = [[1, 2], [], [5, 0, 7]].length ∧
      (∀ F ∈ frames, F.count 0 = 1 ∧ F.getLast? = some 0) ∧
      ∀ chunks : List (List Nat), chunks.flatten = frames.flatten →
        (∃ r1 calls, readMessages chunks Receiver.start = .ok r1 ∧ r1.readLen = 0 ∧
          r1.parsed = Receiver.start.parsed ++ calls ∧
          calls.length = [[1, 2], [], [5, 0, 7]].length ∧
          List.Forall₂ Delivers [[1, 2], [], [5, 0, 7]] calls) ∧
        ∀ pre suf : List Nat, pre ++ suf = frames.flatten →
          ∃ r2, readMessage pre Receiver.start = .ok r2 ∧
            r2.parsed.length = Receiver.start.parsed.length + pre.count 0 :=
  ⟨by decide, C5_once_per_frame [[1, 2], [], [5, 0, 7]] Sender.start Receiver.start (by decide)
    (by decide) (by decide) (by decide) (by decide) (by decide)⟩

/-! ## Claim C6: overflow -/

/-- A terminator received after at most 254 non-zero bytes, starting from an
empty accumulator: `readMessage` calls `unStuffData` on the accumulator made of
these bytes and the terminator, and succeeds exactly when that call does. -/
theorem readMessage_then_terminator (H : List Nat) (r : Receiver) (hH : H.length ≤ 254)
    (hb : Bytes H) (hnz : ∀ b ∈ H, b ≠ 0) (hrl : r.readLen = 0)
    (hrb : r.readBuffer.length = READ_BUFFER_SIZE) :
    readMessage (H ++ [0]) r
      = (unStuffData (H ++ 0 :: r.readBuffer.drop (H.length + 1)) (H.length + 1)
          r.inMessageBuffer).map
        (fun u => { inMessageBuffer := u.dst,
                    readBuffer := H ++ 0 :: r.readBuffer.drop (H.length + 1),
                    readLen := 0,
                    parsed := r.parsed ++
                      [{ data := u.dst, len := ((H.length + 1 : Nat) : Int) - 2 }] }) := by
  simp only [READ_BUFFER_SIZE] at hrb
  obtain ⟨m1, t, m2, hsplit, hm1, _⟩ := split_at r.readBuffer H.length (by omega)
  have hacc := readMessage_nonzero H r [] m1 (t :: m2) (by simp [hsplit]) (by simp [hrl]) hm1
    (by simp; omega) hb hnz
  simp only [List.nil_append, List.length_nil, Nat.zero_add] at hacc
  have hdrop : r.readBuffer.drop (H.length + 1) = m2 := by
    rw [hsplit]
    have e : m1 ++ t :: m2 = (m1 ++ [t]) ++ m2 := by simp
    have l : H.length + 1 = (m1 ++ [t]).length := by simp [hm1]
    rw [l, e, List.drop_left]
  have hm : (H.length + 1) % 256 = H.length + 1 := Nat.mod_eq_of_lt (by omega)
  rw [readMessage_append, hacc, ok_bind, hdrop]
  simp only [readMessage, readByte, Nat.zero_mod, store_append, ok_bind, hm, loadInt_pred,
    load_append, if_true, pure_eq_ok]
  cases unStuffData (H ++ 0 :: m2) (H.length + 1) r.inMessageBuffer with
  | error e => rfl
  | ok u => rfl

/-- Claim C6, as amended.  The receiver has no overflow report and does not
discard anything.  Starting from `readLen = 0`, up to 255 non-zero bytes `G`
without a terminator are all kept at the start of `readBuffer`, `readLen` is
their number, `parseMessage` is not called and `inMessageBuffer` is not
touched.  The bytes before the terminator of a frame `F` that `writeMessage`
produces, received after them, are appended after them as long as the
accumulator holds at most 255 bytes.  When `G` and `F` together are at most 255
bytes, the terminator of `F` makes `readMessage` call `unStuffData` on the
accumulator `G ++ F`, which still starts with `G`, with length
`G.length + F.length`: `readMessage` succeeds exactly when that call does, and
then `parseMessage` is called once, with the buffer the call wrote and the
length argument `G.length + F.length - 2`, and `readLen` is reset to 0. -/
theorem C6_no_overflow_report (G : List Nat) (r : Receiver) (hG : G.length ≤ 255)
    (hb : Bytes G) (hnz : ∀ b ∈ G, b ≠ 0) (hrl : r.readLen = 0)
    (hrb : r.readBuffer.length = READ_BUFFER_SIZE) :
    readMessage G r
        = .ok { r with readBuffer := G ++ r.readBuffer.drop G.length, readLen := G.length } ∧
      ∀ (P : List Nat) (s : Sender), Bytes P → G.length + P.length + 2 ≤ 255 →
        s.outMessageBuffer.length = WRITE_MESSAGE_BUFFER_SIZE →
        s.writeBuffer.length = WRITE_BUFFER_SIZE →
        ∃ s1 F, writeMessage P (P.length : Int) s = .ok s1 ∧ s1.written = s.written ++ [F] ∧
          F.length = P.length + 3 ∧
          readMessage (G ++ F.dropLast) r
            = .ok { r with
                readBuffer := G ++ F.dropLast ++ r.readBuffer.drop (G.length + P.length + 2),
                readLen := G.length + P.length + 2 } ∧
          (G.length + F.length ≤ 255 →
            readMessage (G ++ F) r
              = (unStuffData (G ++ F ++ r.readBuffer.drop (G.length + F.length))
                  (G.length + F.length) r.inMessageBuffer).map
                (fun u => { inMessageBuffer := u.dst,
                            readBuffer := G ++ F ++ r.readBuffer.drop (G.length + F.length),
                            readLen := 0,
                            parsed := r.parsed ++
                              [{ data := u.dst,
                                 len := ((G.length + F.length : Nat) : Int) - 2 }] })) := by
  have hrb0 := hrb
  simp only [READ_BUFFER_SIZE] at hrb
  have key : ∀ H : List Nat, H.length ≤ 255 → Bytes H → (∀ b ∈ H, b ≠ 0) →
      readMessage H r
        = .ok { r with readBuffer := H ++ r.readBuffer.drop H.length, readLen := H.length } := by
    intro H hH hHb hHz
    have h := readMessage_nonzero H r [] (r.readBuffer.take H.length)
      (r.readBuffer.drop H.length) (by simp) (by simp [hrl])
      (by rw [List.length_take]; omega) (by simp; omega) hHb hHz
    simpa using h
  refine ⟨key G hG hb hnz, ?_⟩
  intro P s hPb hlen ho hw
  refine ⟨s.afterSend P, frame P, writeMessage_spec P s (by omega) ho hw, rfl, frame_length P,
    ?_, ?_⟩
  · have hd : (frame P).dropLast = cobs ((P.length + 1) :: P) := by simp [frame]
    have hbx : Bytes ((P.length + 1) :: P) := by
      intro b hb1
      rcases List.mem_cons.mp hb1 with rfl | h
      · omega
      · exact hPb b h
    have h := key (G ++ cobs ((P.length + 1) :: P)) (by simp [cobs_length]; omega)
      (by
        intro b hb1
        rcases List.mem_append.mp hb1 with h | h
        · exact hb b h
        · exact cobs_bytes _ hbx b h)
      (by
        intro b hb1
        rcases List.mem_append.mp hb1 with h | h
        · exact hnz b h
        · exact cobs_nonzero _ (by simp; omega) b h)
    have e : G.length + (P.length + 1 + 1) = G.length + P.length + 2 := by omega
    rw [hd, h]
    simp [cobs_length, e]
  · intro hGF
    rw [frame_length] at hGF
    have hbx : Bytes ((P.length + 1) :: P) := by
      intro b hb1
      rcases List.mem_cons.mp hb1 with rfl | h
      · omega
      · exact hPb b h
    have hHl : (G ++ cobs ((P.length + 1) :: P)).length = G.length + P.length + 2 := by
      simp [cobs_length]; omega
    have h := readMessage_then_terminator (G ++ cobs ((P.length + 1) :: P)) r
      (by rw [hHl]; omega)
      (by
        intro b hb1
        rcases List.mem_append.mp hb1 with h | h
        · exact hb b h
        · exact cobs_bytes _ hbx b h)
      (by
        intro b hb1
        rcases List.mem_append.mp hb1 with h | h
        · exact hnz b h
        · exact cobs_nonzero _ (by simp; omega) b h)
      hrl hrb0
    have e1 : G ++ frame P = (G ++ cobs ((P.length + 1) :: P)) ++ [0] := by simp [frame]
    have e2 : G.length + (frame P).length = (G ++ cobs ((P.length + 1) :: P)).length + 1 := by
      rw [hHl, frame_length]
      omega
    have e3 : ∀ rest : List Nat, G ++ frame P ++ rest
        = (G ++ cobs ((P.length + 1) :: P)) ++ 0 :: rest := by
      intro rest; simp [frame]
    rw [e2, e3, e1]
    exact h

/-- Witness of `C6_no_overflow_report` for three bytes `0x07`. -/
theorem C6_no_overflow_report_witness :
    ([7, 7, 7].length ≤ 255 ∧ Bytes [7, 7, 7] ∧ ∀ b ∈ [7, 7, 7], b ≠ 0) ∧
    (readMessage [7, 7, 7] Receiver.start
        = .ok { Receiver.start with
            readBuffer := [7, 7, 7] ++ Receiver.start.readBuffer.drop [7, 7, 7].length,
            readLen := [7, 7, 7].length } ∧
      ∀ (P : List Nat) (s : Sender), Bytes P → [7, 7, 7].length + P.length + 2 ≤ 255 →
        s.outMessageBuffer.length = WRITE_MESSAGE_BUFFER_SIZE →
        s.writeBuffer.length = WRITE_BUFFER_SIZE →
        ∃ s1 F, writeMessage P (P.length : Int) s = .ok s1 ∧ s1.written = s.written ++ [F] ∧
          F.length = P.length + 3 ∧
          readMessage ([7, 7, 7] ++ F.dropLast) Receiver.start
            = .ok { Receiver.start with
                readBuffer := [7, 7, 7] ++ F.dropLast
                  ++ Receiver.start.readBuffer.drop ([7, 7, 7].length + P.length + 2),
                readLen := [7, 7, 7].length + P.length + 2 } ∧
          ([7, 7, 7].length + F.length ≤ 255 →
            readMessage ([7, 7, 7] ++ F) Receiver.start
              = (unStuffData
                  ([7, 7, 7] ++ F ++ Receiver.start.readBuffer.drop ([7, 7, 7].length + F.length))
                  ([7, 7, 7].length + F.length) Receiver.start.inMessageBuffer).map
                (fun u => { inMessageBuffer := u.dst,
                            readBuffer := [7, 7, 7] ++ F
                              ++ Receiver.start.readBuffer.drop ([7, 7, 7].length + F.length),
                            readLen := 0,
                            parsed := Receiver.start.parsed ++
                              [{ data := u.dst,
                                 len := (([7, 7, 7].length + F.length : Nat) : Int) - 2 }] }))) :=
  ⟨by decide, C6_no_overflow_report [7, 7, 7] Receiver.start (by decide) (by decide) (by decide)
    (by decide) (by decide)⟩

/-- Counterexample to claim C6: 257 bytes `0x01` followed by the frame
`[2, 1, 0]` of the empty payload.  The 256th byte wraps the `unsigned char`
`readLen` to 0 and the terminator test reads `readBuffer[readLen - 1]`, that is
`readBuffer[-1]`: no overflow is reported, and the run has no defined result in
which the frame would be decoded. -/
theorem C6_counterexample :
    readMessage (List.replicate 257 1 ++ [2, 1, 0]) Receiver.start = .error .outOfBounds := by
  have e : List.replicate 257 1 ++ [2, 1, 0] = List.replicate 255 1 ++ 1 :: [1, 2, 1, 0] := by
    rw [show (257 : Nat) = 255 + 2 from rfl, List.replicate_add]
    rfl
  rw [e]
  exact readMessage_wrap (List.replicate 255 1) 1 [1, 2, 1, 0] Receiver.start rfl
    (by intro x hx; rw [List.eq_of_mem_replicate hx]; omega)
    (by intro x hx; rw [List.eq_of_mem_replicate hx]; omega) rfl rfl

/-! ## Claim C7: the accumulator length stays within the capacity -/

/-- Claim C7.  In every state reached from `initMessage` by any sequence of
`readMessage` calls on any input, `readLen` is at most `READ_BUFFER_SIZE`
(indeed below it), and `readBuffer` keeps its size: the accumulator never holds
more bytes than its capacity. -/
theorem C7_readLen_within_capacity (s : Receiver) (chunks : List (List Nat)) (s1 : Receiver)
    (h : readMessages chunks (initMessage s) = .ok s1) :
    s1.readLen < READ_BUFFER_SIZE ∧ s1.readLen ≤ READ_BUFFER_SIZE ∧
      s1.readBuffer.length = s.readBuffer.length := by
  rw [readMessages_eq] at h
  have h1 := readMessage_parsed chunks.flatten (initMessage s) s1 (by simp [initMessage]) h
  have h2 := readMessage_length chunks.flatten (initMessage s) s1 h
  simp only [READ_BUFFER_SIZE]
  exact ⟨h1.1, by omega, by simpa [initMessage] using h2⟩

/-- Witness of `C7_readLen_within_capacity`: two calls, the first receiving a
whole frame and the second one more byte. -/
theorem C7_readLen_within_capacity_witness :
    readMessages [[4, 3, 1, 2, 0], [7]] (initMessage Receiver.start)
        = .ok { inMessageBuffer := [3, 1, 2, 0] ++ List.replicate 250 0,
                readBuffer := [7, 3, 1, 2, 0] ++ List.replicate 251 0,
                readLen := 1,
                parsed := [{ data := [3, 1, 2, 0] ++ List.replicate 250 0, len := 3 }] } ∧
    ((1 : Nat) < READ_BUFFER_SIZE ∧ (1 : Nat) ≤ READ_BUFFER_SIZE ∧
      ([7, 3, 1, 2, 0] ++ List.replicate 251 0).length = Receiver.start.readBuffer.length) :=
  ⟨by decide, C7_readLen_within_capacity Receiver.start [[4, 3, 1, 2, 0], [7]]
    { inMessageBuffer := [3, 1, 2, 0] ++ List.replicate 250 0,
      readBuffer := [7, 3, 1, 2, 0] ++ List.replicate 251 0,
      readLen := 1,
      parsed := [{ data := [3, 1, 2, 0] ++ List.replicate 250 0, len := 3 }] } (by decide)⟩

/-! ## Claim C8: maximum sizes on the send side -/

/-- Claim C8, as amended.  For every payload of at most 253 bytes,
`writeMessage` runs with every access inside `outMessageBuffer` (254 bytes) and
`writeBuffer` (256 bytes): the pre-stuffed buffer takes `len + 1 ≤ 254` bytes,
the output of `stuffData` takes `len + 3 ≤ 256` bytes, and the frame handed to
the transport is `len + 3 ≤ 256` bytes long. -/
theorem C8_send_sizes (P : List Nat) (s : Sender) (hP : P.length ≤ 253)
    (ho : s.outMessageBuffer.length = WRITE_MESSAGE_BUFFER_SIZE)
    (hw : s.writeBuffer.length = WRITE_BUFFER_SIZE) :
    ∃ s1 F, writeMessage P (P.length : Int) s = .ok s1 ∧
      s1.outMessageBuffer.length = WRITE_MESSAGE_BUFFER_SIZE ∧
      s1.writeBuffer.length = WRITE_BUFFER_SIZE ∧
      s1.outMessageBuffer.drop (P.length + 1) = s.outMessageBuffer.drop (P.length + 1) ∧
      P.length + 1 ≤ WRITE_MESSAGE_BUFFER_SIZE ∧
      s1.writeBuffer.drop (P.length + 3) = s.writeBuffer.drop (P.length + 3) ∧
      P.length + 3 ≤ WRITE_BUFFER_SIZE ∧
      s1.written = s.written ++ [F] ∧ F.length = P.length + 3 ∧ F.length ≤ 256 := by
  obtain ⟨h1, h2⟩ := afterSend_sized s P hP ho hw
  refine ⟨s.afterSend P, frame P, writeMessage_spec P s hP ho hw, h1, h2, ?_, ?_, ?_, ?_, rfl,
    frame_length P, by rw [frame_length]; omega⟩
  · have l : P.length + 1 = ((P.length + 1) :: P).length := by simp
    have e : (s.afterSend P).outMessageBuffer
        = ((P.length + 1) :: P) ++ s.outMessageBuffer.drop (P.length + 1) := by
      simp [Sender.afterSend]
    rw [e]
    nth_rewrite 1 [l]
    rw [List.drop_left]
  · simp only [WRITE_MESSAGE_BUFFER_SIZE]; omega
  · have l : P.length + 3 = (cobs ((P.length + 1) :: P) ++ [0]).length := by
      simp [cobs_length]
    have e : (s.afterSend P).writeBuffer
        = (cobs ((P.length + 1) :: P) ++ [0]) ++ s.writeBuffer.drop (P.length + 3) := by
      simp [Sender.afterSend]
    rw [e]
    nth_rewrite 1 [l]
    rw [List.drop_left]
  · simp only [WRITE_BUFFER_SIZE]; omega

/-- Witness of `C8_send_sizes` at the payload `[5, 0, 7]`. -/
theorem C8_send_sizes_witness :
    [5, 0, 7].length ≤ 253 ∧
    ∃ s1 F, writeMessage [5, 0, 7] ([5, 0, 7].length : Int) Sender.start = .ok s1 ∧
      s1.outMessageBuffer.length = WRITE_MESSAGE_BUFFER_SIZE ∧
      s1.writeBuffer.length = WRITE_BUFFER_SIZE ∧
      s1.outMessageBuffer.drop ([5, 0, 7].length + 1)
        = Sender.start.outMessageBuffer.drop ([5, 0, 7].length + 1) ∧
      [5, 0, 7].length + 1 ≤ WRITE_MESSAGE_BUFFER_SIZE ∧
      s1.writeBuffer.drop ([5, 0, 7].length + 3)
        = Sender.start.writeBuffer.drop ([5, 0, 7].length + 3) ∧
      [5, 0, 7].length + 3 ≤ WRITE_BUFFER_SIZE ∧
      s1.written = Sender.start.written ++ [F] ∧ F.length = [5, 0, 7].length + 3 ∧
      F.length ≤ 256 :=
  ⟨by decide, C8_send_sizes [5, 0, 7] Sender.start (by decide) (by decide) (by decide)⟩

/-- Counterexample to claim C8 at the stated maximum of 254 bytes: for a
payload of 254 bytes `0x01` the copy loop of `writeMessage` stores to
`outMessageBuffer[1 + 253]`, one past the end of the 254-byte array. -/
theorem C8_counterexample :
    writeMessage (List.replicate 254 1) 254 Sender.start = .error .outOfBounds := by
  decide

/-! ## Claim C9: supported payload range on the receive side -/

/-- Claim C9 fails at the payload of 253 bytes `0x01`.  `writeMessage` sends a
frame of 256 bytes; on the receiver its terminator is stored at
`readBuffer[255]`, `readLen++` wraps the `unsigned char` to 0, and the
terminator test reads `readBuffer[readLen - 1]`, that is `readBuffer[-1]`:
`parseMessage` is not reached. -/
theorem C9_failing_input :
    ∃ s1, writeMessage (List.replicate 253 1) 253 Sender.start = .ok s1 ∧
      s1.written = [255 :: 254 :: List.replicate 253 1 ++ [0]] ∧
      (255 :: 254 :: List.replicate 253 1 ++ [0]).length = 256 ∧
      readMessage (255 :: 254 :: List.replicate 253 1 ++ [0]) Receiver.start
        = .error .outOfBounds := by
  have hw := writeMessage_spec (List.replicate 253 1) Sender.start (by simp) rfl rfl
  simp only [List.length_replicate, Nat.cast_ofNat] at hw
  have hnz : ∀ x ∈ 254 :: List.replicate 253 1, x ≠ 0 := by
    intro x hx
    rcases List.mem_cons.mp hx with rfl | h
    · omega
    · rw [List.eq_of_mem_replicate h]; omega
  have hf : frame (List.replicate 253 1) = 255 :: 254 :: List.replicate 253 1 ++ [0] := by
    unfold frame
    rw [List.length_replicate, cobs_of_nonzero _ hnz, List.length_cons, List.length_replicate]
  refine ⟨_, hw, ?_, rfl, ?_⟩
  · show ([] : List (List Nat)) ++ [frame (List.replicate 253 1)] = _
    rw [hf]
    rfl
  have e : 255 :: 254 :: List.replicate 253 1 ++ [0]
      = (255 :: 254 :: List.replicate 253 1) ++ 0 :: [] := by simp
  rw [e]
  refine readMessage_wrap _ 0 [] Receiver.start rfl ?_ ?_ rfl rfl
  · intro x hx
    rcases List.mem_cons.mp hx with rfl | h
    · omega
    · rcases List.mem_cons.mp h with rfl | h
      · omega
      · rw [List.eq_of_mem_replicate h]; omega
  · intro x hx
    rcases List.mem_cons.mp hx with rfl | h
    · omega
    · exact hnz x h

/-! ## Claim C10: what `writeMessage` hands to the transport -/

/-- Claim C10.  For every payload of `len` = 0 to 253 bytes, `writeMessage`
makes exactly one `writeComm` call, of `len + 3` bytes, and these bytes are
exactly what `stuffData` writes for `[len + 1] ++ payload`, the last of them
being the terminator `0x00`. -/
theorem C10_send_wire_content (P : List Nat) (s : Sender) (dst : List Nat)
    (hP : P.length ≤ 253) (ho : s.outMessageBuffer.length = WRITE_MESSAGE_BUFFER_SIZE)
    (hw : s.writeBuffer.length = WRITE_BUFFER_SIZE) (hd : dst.length = P.length + 3) :
    ∃ s1 F, writeMessage P (P.length : Int) s = .ok s1 ∧ s1.written = s.written ++ [F] ∧
      F.length = P.length + 3 ∧
      stuffData ((P.length + 1) :: P) (P.length + 1) dst = .ok F ∧
      F.getLast? = some 0 := by
  refine ⟨s.afterSend P, frame P, writeMessage_spec P s hP ho hw, rfl, frame_length P, ?_,
    frame_getLast P⟩
  have h := stuffData_spec ((P.length + 1) :: P) [] dst (by simp; omega) (by simp; omega)
  simp only [List.length_cons, List.append_nil] at h
  rw [h, List.drop_of_length_le (by omega)]
  rfl

/-- Witness of `C10_send_wire_content` at the payload `[5, 0, 7]`. -/
theorem C10_send_wire_content_witness :
    ([5, 0, 7].length ≤ 253 ∧ (List.replicate 6 9).length = [5, 0, 7].length + 3) ∧
    ∃ s1 F, writeMessage [5, 0, 7] ([5, 0, 7].length : Int) Sender.start = .ok s1 ∧
      s1.written = Sender.start.written ++ [F] ∧ F.length = [5, 0, 7].length + 3 ∧
      stuffData (([5, 0, 7].length + 1) :: [5, 0, 7]) ([5, 0, 7].length + 1)
        (List.replicate 6 9) = .ok F ∧
      F.getLast? = some 0 :=
  ⟨by decide, C10_send_wire_content [5, 0, 7] Sender.start (List.replicate 6 9) (by decide)
    (by decide) (by decide) (by decide)⟩

/-! ## Well-formed frames: the wire grammar and what the decoder does on it -/

theorem wireBlocks_eq_blocks (rs : List (List Nat)) (h : BlockRuns rs) :
    wireBlocks rs = blocks rs := by
  induction rs with
  | nil => rfl
  | cons r rs ih =>
    have hr := (h r (by simp)).1
    have hc : blockCode r = r.length + 1 := Nat.mod_eq_of_lt (by omega)
    simp only [wireBlocks, blocks, hc, ih (fun q hq => h q (by simp [hq]))]

theorem BlockRuns.length_le {rs : List (List Nat)} (h : BlockRuns rs) :
    ∀ r ∈ rs, r.length ≤ 254 := fun r hr => by have := (h r hr).1; omega

theorem BlockRuns.nonzero {rs : List (List Nat)} (h : BlockRuns rs) :
    ∀ r ∈ rs, ∀ b ∈ r, b ≠ 0 := fun r hr b hb => ((h r hr).2 b hb).1

theorem BlockRuns.bytes {rs : List (List Nat)} (h : BlockRuns rs) :
    ∀ r ∈ rs, Bytes r := fun r hr b hb => ((h r hr).2 b hb).2

theorem length_le_blocks_length (rs : List (List Nat)) : rs.length ≤ (blocks rs).length := by
  induction rs with
  | nil => simp
  | cons r rs ih => simp [blocks]; omega

theorem blocks_ne_nil (rs : List (List Nat)) (h : rs ≠ []) : blocks rs ≠ [] := by
  cases rs with
  | nil => exact absurd rfl h
  | cons r rs => simp [blocks]

theorem zeroEnded_getLast (rs : List (List Nat)) (h : rs ≠ []) :
    (zeroEnded rs).getLast? = some 0 := by
  induction rs with
  | nil => exact absurd rfl h
  | cons r rs ih =>
    cases rs with
    | nil => simp [zeroEnded]
    | cons q qs =>
      have h1 := ih (by simp)
      have e : zeroEnded (r :: q :: qs) = (r ++ [0]) ++ zeroEnded (q :: qs) := by
        simp [zeroEnded]
      have hne : zeroEnded (q :: qs) ≠ [] := by simp [zeroEnded]
      rw [e, List.getLast?_append_of_ne_nil _ hne, h1]

/-- What `unStuffData` computes on a sequence of blocks of `n - 1` bytes, with
length argument `n ≤ 255`: it reads the `n - 1` bytes of the blocks, whatever
follows them in the source array, and writes the runs, each followed by a zero
byte, in `n - 1` bytes. -/
theorem unStuffData_blocks (rs : List (List Nat)) (rest dmid dtail : List Nat)
    (hl : ∀ r ∈ rs, r.length ≤ 254) (hn : (blocks rs).length + 1 ≤ 255)
    (hd : dmid.length = (blocks rs).length) :
    unStuffData (blocks rs ++ rest) ((blocks rs).length + 1) (dmid ++ dtail)
      = .ok { ptr := (blocks rs).length, dstp := (blocks rs).length,
              dst := zeroEnded rs ++ dtail } := by
  have hm : ((blocks rs).length + 1) % 256 = (blocks rs).length + 1 :=
    Nat.mod_eq_of_lt (by omega)
  unfold unStuffData
  rw [hm, unStuffLoop_spec rs ((blocks rs).length + 1) (blocks rs ++ rest) (dmid ++ dtail) []
    rest [] dmid dtail 0 0 _ (by simp) rfl (by simp) rfl (by push_cast; omega) hl
    (by have := length_le_blocks_length rs; omega) hd]
  simp

/-- The terminator received after a sequence of blocks. -/
theorem readByte_terminator_blocks (rs : List (List Nat)) (s : Receiver) (t : Nat)
    (rest dmid dtail : List Nat) (hl : ∀ r ∈ rs, r.length ≤ 254)
    (hn : (blocks rs).length + 1 ≤ 255) (hrb : s.readBuffer = blocks rs ++ t :: rest)
    (hrl : s.readLen = (blocks rs).length) (hin : s.inMessageBuffer = dmid ++ dtail)
    (hd : dmid.length = (blocks rs).length) :
    readByte 0 s
      = .ok { inMessageBuffer := zeroEnded rs ++ dtail, readBuffer := blocks rs ++ 0 :: rest,
              readLen := 0,
              parsed := s.parsed ++
                [{ data := zeroEnded rs ++ dtail, len := ((blocks rs).length : Int) - 1 }] } := by
  have hm : ((blocks rs).length + 1) % 256 = (blocks rs).length + 1 :=
    Nat.mod_eq_of_lt (by omega)
  have hu := unStuffData_blocks rs (0 :: rest) dmid dtail hl hn hd
  have hlen : ((((blocks rs).length + 1 : Nat) : Int) - 2) = ((blocks rs).length : Int) - 1 := by
    push_cast; ring
  simp only [readByte, hrb, hrl, hin, Nat.zero_mod, hm, store_append, ok_bind, loadInt_pred,
    load_append, if_true, hu, pure_eq_ok, hlen]

/-- The buffer `parseMessage` is handed when the frame with the blocks of `rs`
has been received in state `r` with an empty accumulator. -/
theorem readMessage_blocks (rs : List (List Nat)) (s : Receiver)
    (hrs : BlockRuns rs) (hn : (blocks rs).length + 1 ≤ 255) (hrl : s.readLen = 0)
    (hrb : s.readBuffer.length = READ_BUFFER_SIZE)
    (hin : s.inMessageBuffer.length = READ_MESSAGE_BUFFER_SIZE) :
    readMessage (blocks rs) s
        = .ok { s with
            readBuffer := blocks rs ++ s.readBuffer.drop (blocks rs).length,
            readLen := (blocks rs).length } ∧
      readMessage (blocks rs ++ [0]) s
        = .ok { inMessageBuffer := zeroEnded rs ++ s.inMessageBuffer.drop (blocks rs).length,
                readBuffer := blocks rs ++ 0 :: s.readBuffer.drop ((blocks rs).length + 1),
                readLen := 0,
                parsed := s.parsed ++
                  [{ data := zeroEnded rs ++ s.inMessageBuffer.drop (blocks rs).length,
                     len := ((blocks rs).length : Int) - 1 }] } := by
  simp only [READ_BUFFER_SIZE, READ_MESSAGE_BUFFER_SIZE] at hrb hin
  obtain ⟨m1, t, m2, hsplit, hm1, _⟩ := split_at s.readBuffer (blocks rs).length (by omega)
  have hacc := readMessage_nonzero (blocks rs) s [] m1 (t :: m2) (by simp [hsplit])
    (by simp [hrl]) hm1 (by simp; omega) (blocks_bytes rs hrs.bytes)
    (blocks_nonzero rs hrs.length_le hrs.nonzero)
  simp only [List.nil_append, List.length_nil, Nat.zero_add] at hacc
  have hdrop0 : s.readBuffer.drop (blocks rs).length = t :: m2 := by
    rw [hsplit, ← hm1, List.drop_left]
  have hdrop : s.readBuffer.drop ((blocks rs).length + 1) = m2 := by
    rw [hsplit]
    have e : m1 ++ t :: m2 = (m1 ++ [t]) ++ m2 := by simp
    have l : (blocks rs).length + 1 = (m1 ++ [t]).length := by simp [hm1]
    rw [l, e, List.drop_left]
  constructor
  · rw [hacc, hdrop0]
  · rw [readMessage_append, hacc, ok_bind]
    have hterm := readByte_terminator_blocks rs
      { s with readBuffer := blocks rs ++ t :: m2, readLen := (blocks rs).length } t m2
      (s.inMessageBuffer.take (blocks rs).length) (s.inMessageBuffer.drop (blocks rs).length)
      hrs.length_le hn rfl rfl (by simp) (by rw [List.length_take]; omega)
    simp only [readMessage, hterm, ok_bind, pure_eq_ok, hdrop]

/-- A sequence of blocks has one reading only. -/
theorem wireBlocks_injective (rs : List (List Nat)) :
    ∀ qs : List (List Nat), wireBlocks rs = wireBlocks qs → rs = qs := by
  induction rs with
  | nil =>
    intro qs h
    cases qs with
    | nil => rfl
    | cons q qs => simp [wireBlocks] at h
  | cons r rs ih =>
    intro qs h
    cases qs with
    | nil => simp [wireBlocks] at h
    | cons q qs =>
      simp only [wireBlocks, List.cons_append, List.cons.injEq] at h
      have h1 := h.1
      have h2 := h.2
      have hlen : r.length = q.length := by omega
      have h3 := (List.append_inj h2 hlen).1
      have h4 := (List.append_inj h2 hlen).2
      rw [h3, ih qs h4]

theorem splitRuns_eq_splitOn (xs : List Nat) :
    ∀ run : List Nat, (∀ b ∈ run, b ≠ 0) → splitRuns run xs = (run ++ xs).splitOn 0 := by
  induction xs with
  | nil =>
    intro run h
    simp only [splitRuns, List.append_nil, List.splitOn]
    rw [List.splitOnP_eq_single]
    intro x hx
    simpa using h x hx
  | cons b xs ih =>
    intro run h
    by_cases hb : b = 0
    · subst hb
      simp only [splitRuns, if_true, List.splitOn]
      rw [List.splitOnP_first _ _ (by intro x hx; simpa using h x hx) 0 (by simp)]
      have := ih [] (by simp)
      simp only [List.nil_append, List.splitOn] at this
      rw [this]
    · simp only [splitRuns, hb, if_false]
      have e : run ++ b :: xs = (run ++ [b]) ++ xs := by simp
      rw [e]
      refine ih (run ++ [b]) ?_
      intro x hx
      rcases List.mem_append.mp hx with h1 | h1
      · exact h x h1
      · simp at h1; omega

theorem splitRuns_count (xs : List Nat) :
    ∀ run : List Nat, (splitRuns run xs).length = xs.count 0 + 1 := by
  induction xs with
  | nil => intro run; simp [splitRuns]
  | cons b xs ih =>
    intro run
    by_cases hb : b = 0
    · subst hb; simp [splitRuns, ih]
    · simp [splitRuns, hb, ih, List.count_cons]

theorem splitRuns_blockRuns (X : List Nat) (hX : X.length ≤ 254) (hb : Bytes X) :
    BlockRuns (splitRuns [] X) := by
  intro r hr
  have h1 := splitRuns_length_le X [] r hr
  have h2 := splitRuns_nonzero X [] (by simp) r hr
  have h3 := splitRuns_bytes X [] (by simp [Bytes]) hb r hr
  simp only [List.length_nil, Nat.zero_add] at h1
  exact ⟨by omega, fun b hbr => ⟨h2 b hbr, h3 b hbr⟩⟩

/-! ## What `writeMessage` returns -/

theorem writeMessageVoid_eq (transport : List Nat → Int) (data : List Nat) (len : Int)
    (s : Sender) :
    writeMessageVoid transport data len s
      = (writeMessage data len s).map (fun s1 => (s1, ())) := by
  simp only [writeMessageVoid, writeMessage, writeCommResult]
  cases store s.outMessageBuffer 0 ((len + 1) % 256).toNat with
  | error e => rfl
  | ok out0 =>
    simp only [ok_bind]
    cases copyPayload data len.toNat 0 out0 with
    | error e => rfl
    | ok out1 =>
      simp only [ok_bind]
      cases stuffData out1 ((len + 1) % 256).toNat s.writeBuffer with
      | error e => rfl
      | ok wb =>
        simp only [ok_bind]
        cases writeComm wb ((((len + 1) % 256).toNat : Int) + 2) with
        | error e => rfl
        | ok sent => rfl

/-! ## Claim C11: what `writeMessage` returns to its caller -/

/-- Claim C11, as amended.  `writeMessage` is declared `void`: for every
payload, every length argument and every result of the transport, it returns no
value to its caller, and what it does (the buffers, the bytes handed to
`writeComm`) is the same whatever `writeComm` returns. -/
theorem C11_result_discarded (transport other : List Nat → Int) (data : List Nat) (len : Int)
    (s : Sender) :
    writeMessageVoid transport data len s
        = (writeMessage data len s).map (fun s1 => (s1, ())) ∧
      writeMessageVoid other data len s = writeMessageVoid transport data len s := by
  refine ⟨writeMessageVoid_eq transport data len s, ?_⟩
  rw [writeMessageVoid_eq, writeMessageVoid_eq]

/-- Counterexample to claim C11 at the payload `[0x01, 0x02]`: with a
transport that returns 5 (all bytes written) and with one that returns -1 (an
error), there is no way to read both results off what `writeMessage` returns. -/
theorem C11_counterexample :
    ¬ ∃ view : Unit → Int,
      (writeMessageVoid (fun _ => 5) [1, 2] 2 Sender.start).map (fun p => view p.2) = .ok 5 ∧
      (writeMessageVoid (fun _ => -1) [1, 2] 2 Sender.start).map (fun p => view p.2)
        = .ok (-1) := by
  rintro ⟨view, h1, h2⟩
  have hw := writeMessage_spec [1, 2] Sender.start (by decide) rfl rfl
  simp only [List.length_cons, List.length_nil, Nat.zero_add, Nat.reduceAdd,
    Nat.cast_ofNat] at hw
  rw [writeMessageVoid_eq, hw] at h1 h2
  simp only [Except.map, Except.ok.injEq] at h1 h2
  omega

/-! ## Claim C12: `initMessage` resynchronises -/

/-- Claim C12.  `initMessage` sets `readLen = 0` and is idempotent.  For every
receiver state (any `readLen`, any contents of `readBuffer` and
`inMessageBuffer`) and every well-formed frame of at most 255 bytes (a sequence
of blocks and the terminator), feeding the frame after `initMessage` makes
`parseMessage` be called with the same length argument and the same first
`length + 1` bytes as feeding it to a freshly initialised receiver; that
length is the frame length minus 2. -/
theorem C12_init_resynchronises (s : Receiver) (rs : List (List Nat)) (hrs : BlockRuns rs)
    (hn : (wireBlocks rs ++ [0]).length ≤ 255)
    (hrb : s.readBuffer.length = READ_BUFFER_SIZE)
    (hin : s.inMessageBuffer.length = READ_MESSAGE_BUFFER_SIZE) :
    (initMessage s).readLen = 0 ∧ initMessage (initMessage s) = initMessage s ∧
    ∃ r1 r2 c1 c2, readMessage (wireBlocks rs ++ [0]) (initMessage s) = .ok r1 ∧
      readMessage (wireBlocks rs ++ [0]) (initMessage Receiver.start) = .ok r2 ∧
      r1.parsed = s.parsed ++ [c1] ∧ r2.parsed = [c2] ∧
      c1.len = c2.len ∧ c1.len = ((wireBlocks rs ++ [0]).length : Int) - 2 ∧
      c1.data.take (c1.len + 1).toNat = c2.data.take (c2.len + 1).toNat ∧
      (c1.len + 1).toNat = (wireBlocks rs).length := by
  rw [wireBlocks_eq_blocks rs hrs] at hn ⊢
  have hn1 : (blocks rs).length + 1 ≤ 255 := by simpa using hn
  have h1 := (readMessage_blocks rs (initMessage s) hrs hn1 rfl hrb hin).2
  have h2 := (readMessage_blocks rs (initMessage Receiver.start) hrs hn1 rfl rfl rfl).2
  have hl : ((((blocks rs).length : Int) - 1) + 1).toNat = (blocks rs).length := by
    simp
  have hz : (blocks rs).length = (zeroEnded rs).length := blocks_length_eq_zeroEnded rs
  refine ⟨rfl, rfl, _, _, _, _, h1, h2, rfl, rfl, rfl, ?_, ?_, hl⟩
  · simp only [List.length_append, List.length_singleton]
    push_cast
    ring
  · simp only [hl]
    rw [hz, List.take_left, List.take_left]

/-- Witness of `C12_init_resynchronises`: the frame `[3, 5, 7, 1, 2, 9, 0]`
(blocks `3 5 7`, `1`, `2 9`), received by a receiver that was in the middle of
another frame. -/
theorem C12_init_resynchronises_witness :
    (BlockRuns [[5, 7], [], [9]] ∧ (wireBlocks [[5, 7], [], [9]] ++ [0]).length ≤ 255) ∧
    ((initMessage { Receiver.start with readLen := 3 }).readLen = 0 ∧
    initMessage (initMessage { Receiver.start with readLen := 3 })
      = initMessage { Receiver.start with readLen := 3 } ∧
    ∃ r1 r2 c1 c2,
      readMessage (wireBlocks [[5, 7], [], [9]] ++ [0])
        (initMessage { Receiver.start with readLen := 3 }) = .ok r1 ∧
      readMessage (wireBlocks [[5, 7], [], [9]] ++ [0]) (initMessage Receiver.start) = .ok r2 ∧
      r1.parsed = ({ Receiver.start with readLen := 3 } : Receiver).parsed ++ [c1] ∧
      r2.parsed = [c2] ∧
      c1.len = c2.len ∧ c1.len = ((wireBlocks [[5, 7], [], [9]] ++ [0]).length : Int) - 2 ∧
      c1.data.take (c1.len + 1).toNat = c2.data.take (c2.len + 1).toNat ∧
      (c1.len + 1).toNat = (wireBlocks [[5, 7], [], [9]]).length) :=
  ⟨by decide, C12_init_resynchronises { Receiver.start with readLen := 3 } [[5, 7], [], [9]]
    (by decide) (by decide) (by decide) (by decide)⟩

/-! ## Claim C13: the wire format -/

/-- Claim C13.  For every input `X` of 0 to 254 bytes, the `X.length + 1` bytes
`stuffData` writes before the terminator are a sequence of blocks, each a code
byte `c` in `[1, 255]` followed by `c - 1` non-zero literal bytes, in exactly
one way; the literal runs of the blocks are the maximal zero-free runs of `X`
(`X` split at its zero bytes), and there are (number of zero bytes of `X`) + 1
of them. -/
theorem C13_wire_format (X rest dst : List Nat) (hX : X.length ≤ 254) (hb : Bytes X)
    (hd : X.length + 2 ≤ dst.length) :
    ∃ W, stuffData (X ++ rest) X.length dst = .ok W ∧
      W.drop (X.length + 1) = 0 :: dst.drop (X.length + 2) ∧
      BlockRuns (X.splitOn 0) ∧ W.take (X.length + 1) = wireBlocks (X.splitOn 0) ∧
      (∀ rs : List (List Nat), BlockRuns rs → W.take (X.length + 1) = wireBlocks rs →
        rs = X.splitOn 0) ∧
      (X.splitOn 0).length = X.count 0 + 1 := by
  have hsp : splitRuns [] X = X.splitOn 0 := by
    simpa using splitRuns_eq_splitOn X [] (by simp)
  have hbr : BlockRuns (X.splitOn 0) := hsp ▸ splitRuns_blockRuns X hX hb
  have hcl : X.length + 1 = (cobs X).length := (cobs_length X).symm
  have hw : cobs X = wireBlocks (X.splitOn 0) := by
    rw [wireBlocks_eq_blocks _ hbr, ← hsp, cobs]
  have htake : (cobs X ++ 0 :: dst.drop (X.length + 2)).take (X.length + 1)
      = wireBlocks (X.splitOn 0) := by
    rw [hcl, List.take_left, hw]
  refine ⟨_, stuffData_spec X rest dst (by omega) hd, ?_, hbr, htake, ?_, ?_⟩
  · rw [hcl, List.drop_left]
  · intro rs _ h
    rw [htake] at h
    exact (wireBlocks_injective _ _ h).symm
  · rw [← hsp, splitRuns_count]

/-- Witness of `C13_wire_format` at `X = [5, 0, 7]`. -/
theorem C13_wire_format_witness :
    ([5, 0, 7].length ≤ 254 ∧ Bytes [5, 0, 7] ∧
      [5, 0, 7].length + 2 ≤ (List.replicate 8 1).length) ∧
    ∃ W, stuffData ([5, 0, 7] ++ [9]) [5, 0, 7].length (List.replicate 8 1) = .ok W ∧
      W.drop ([5, 0, 7].length + 1) = 0 :: (List.replicate 8 1).drop ([5, 0, 7].length + 2) ∧
      BlockRuns ([5, 0, 7].splitOn 0) ∧
      W.take ([5, 0, 7].length + 1) = wireBlocks ([5, 0, 7].splitOn 0) ∧
      (∀ rs : List (List Nat), BlockRuns rs → W.take ([5, 0, 7].length + 1) = wireBlocks rs →
        rs = [5, 0, 7].splitOn 0) ∧
      ([5, 0, 7].splitOn 0).length = [5, 0, 7].count 0 + 1 :=
  ⟨by decide, C13_wire_format [5, 0, 7] [9] (List.replicate 8 1) (by decide) (by decide)
    (by decide)⟩

/-! ## Claim C14: the decoded length -/

/-- Claim C14.  For every well-formed frame of `n` bytes, `n` in 2..255 (a
non-empty sequence of blocks, in `n - 1` bytes, then the terminator),
`unStuffData(frame, n, dst)` reads only the positions `0..n-2`: it gives the
same result whatever stands at the positions from `n - 1` on in the source
array, also when the array ends there, and its read pointer ends at `n - 1`.
It writes exactly `n - 1` bytes to `dst`, the last of them `0x00`.  The length
`readMessage` passes to `parseMessage`, `readLen - 2 = n - 2`, is that number
of decoded bytes minus one. -/
theorem C14_decoded_length (rs : List (List Nat)) (rest dst : List Nat) (r : Receiver)
    (hne : rs ≠ []) (hrs : BlockRuns rs) (hn : (wireBlocks rs ++ [0]).length ≤ 255)
    (hd : (wireBlocks rs).length ≤ dst.length) (hrl : r.readLen = 0)
    (hrb : r.readBuffer.length = READ_BUFFER_SIZE)
    (hin : r.inMessageBuffer.length = READ_MESSAGE_BUFFER_SIZE) :
    2 ≤ (wireBlocks rs ++ [0]).length ∧
    ∃ u, unStuffData (wireBlocks rs ++ rest) (wireBlocks rs ++ [0]).length dst = .ok u ∧
      unStuffData (wireBlocks rs) (wireBlocks rs ++ [0]).length dst = .ok u ∧
      u.ptr = (wireBlocks rs ++ [0]).length - 1 ∧
      u.dstp = (wireBlocks rs ++ [0]).length - 1 ∧
      u.dst.drop u.dstp = dst.drop u.dstp ∧
      (u.dst.take u.dstp).getLast? = some 0 ∧
      ∃ r1 c, readMessage (wireBlocks rs ++ [0]) r = .ok r1 ∧ r1.parsed = r.parsed ++ [c] ∧
        c.len = (u.dstp : Int) - 1 ∧ c.len = ((wireBlocks rs ++ [0]).length : Int) - 2 := by
  rw [wireBlocks_eq_blocks rs hrs] at hn hd ⊢
  have hn1 : (blocks rs).length + 1 ≤ 255 := by simpa using hn
  have hpos : 0 < (blocks rs).length :=
    List.length_pos.mpr (blocks_ne_nil rs hne)
  have hlen : (blocks rs ++ [0]).length = (blocks rs).length + 1 := by simp
  have hz : (blocks rs).length = (zeroEnded rs).length := blocks_length_eq_zeroEnded rs
  have hu := fun rest0 => unStuffData_blocks rs rest0 (dst.take (blocks rs).length)
    (dst.drop (blocks rs).length) hrs.length_le hn1 (by rw [List.length_take]; omega)
  simp only [List.take_append_drop] at hu
  have h1 := (readMessage_blocks rs r hrs hn1 hrl hrb hin).2
  rw [hlen]
  refine ⟨by omega, _, hu rest, ?_, rfl, rfl, ?_, ?_, _, _, h1, rfl, rfl, ?_⟩
  · have := hu []
    rwa [List.append_nil] at this
  · simp only []
    nth_rewrite 1 [hz]
    rw [List.drop_left]
  · simp only []
    nth_rewrite 1 [hz]
    rw [List.take_left]
    exact zeroEnded_getLast rs hne
  · simp only []
    push_cast
    ring

/-- Witness of `C14_decoded_length`: the frame `[2, 1, 0]` of the empty
payload. -/
theorem C14_decoded_length_witness :
    (([[1]] : List (List Nat)) ≠ [] ∧ BlockRuns [[1]] ∧
      (wireBlocks [[1]] ++ [0]).length ≤ 255 ∧
      (wireBlocks [[1]]).length ≤ (List.replicate 4 9).length) ∧
    (2 ≤ (wireBlocks [[1]] ++ [0]).length ∧
    ∃ u, unStuffData (wireBlocks [[1]] ++ [0, 8]) (wireBlocks [[1]] ++ [0]).length
        (List.replicate 4 9) = .ok u ∧
      unStuffData (wireBlocks [[1]]) (wireBlocks [[1]] ++ [0]).length (List.replicate 4 9)
        = .ok u ∧
      u.ptr = (wireBlocks [[1]] ++ [0]).length - 1 ∧
      u.dstp = (wireBlocks [[1]] ++ [0]).length - 1 ∧
      u.dst.drop u.dstp = (List.replicate 4 9).drop u.dstp ∧
      (u.dst.take u.dstp).getLast? = some 0 ∧
      ∃ r1 c, readMessage (wireBlocks [[1]] ++ [0]) Receiver.start = .ok r1 ∧
        r1.parsed = Receiver.start.parsed ++ [c] ∧
        c.len = (u.dstp : Int) - 1 ∧ c.len = ((wireBlocks [[1]] ++ [0]).length : Int) - 2) :=
  ⟨by decide, C14_decoded_length [[1]] [0, 8] (List.replicate 4 9) Receiver.start (by decide)
    (by decide) (by decide) (by decide) (by decide) (by decide) (by decide)⟩

/-! ## Claim C15: a terminator received on an empty accumulator -/

/-- Claim C15.  When a `0x00` byte arrives while `readLen = 0`: `unStuffData`
is called with length 1 on the accumulator, does not enter its loop and writes
nothing; `parseMessage` is called exactly once, with length argument -1 and the
unchanged `inMessageBuffer`; `readLen` is 0 afterwards. -/
theorem C15_lone_terminator (s : Receiver) (hrl : s.readLen = 0)
    (hrb : s.readBuffer.length = READ_BUFFER_SIZE) :
    store s.readBuffer s.readLen 0 = .ok (s.readBuffer.set 0 0) ∧
    (s.readLen + 1) % 256 = 1 ∧
    unStuffData (s.readBuffer.set 0 0) 1 s.inMessageBuffer
      = .ok { ptr := 0, dstp := 0, dst := s.inMessageBuffer } ∧
    readMessage [0] s
      = .ok { s with
          readBuffer := s.readBuffer.set 0 0, readLen := 0,
          parsed := s.parsed ++ [{ data := s.inMessageBuffer, len := -1 }] } := by
  simp only [READ_BUFFER_SIZE] at hrb
  have hs : store s.readBuffer 0 0 = .ok (s.readBuffer.set 0 0) := by
    simp [store, hrb]
  have hu : unStuffData (s.readBuffer.set 0 0) 1 s.inMessageBuffer
      = .ok { ptr := 0, dstp := 0, dst := s.inMessageBuffer } := rfl
  have hl : loadInt (s.readBuffer.set 0 0) (((1 : Nat) : Int) - 1) = .ok 0 := by
    have := loadInt_pred (s.readBuffer.set 0 0) 0
    simp only [Nat.zero_add] at this
    rw [this]
    simp [load, hrb]
  refine ⟨by rw [hrl]; exact hs, by rw [hrl], hu, ?_⟩
  simp only [readMessage, readByte, hrl, Nat.zero_mod, hs, ok_bind, Nat.zero_add,
    Nat.one_mod, hl, if_true, hu, pure_eq_ok]
  rfl

/-- Witness of `C15_lone_terminator`: a receiver that has just decoded the
frame `[4, 3, 1, 2, 0]`. -/
theorem C15_lone_terminator_witness :
    ((Receiver.start.afterFrame [1, 2]).readLen = 0 ∧
      (Receiver.start.afterFrame [1, 2]).readBuffer.length = READ_BUFFER_SIZE) ∧
    (store (Receiver.start.afterFrame [1, 2]).readBuffer
        (Receiver.start.afterFrame [1, 2]).readLen 0
      = .ok ((Receiver.start.afterFrame [1, 2]).readBuffer.set 0 0) ∧
    ((Receiver.start.afterFrame [1, 2]).readLen + 1) % 256 = 1 ∧
    unStuffData ((Receiver.start.afterFrame [1, 2]).readBuffer.set 0 0) 1
        (Receiver.start.afterFrame [1, 2]).inMessageBuffer
      = .ok { ptr := 0, dstp := 0, dst := (Receiver.start.afterFrame [1, 2]).inMessageBuffer } ∧
    readMessage [0] (Receiver.start.afterFrame [1, 2])
      = .ok { Receiver.start.afterFrame [1, 2] with
          readBuffer := (Receiver.start.afterFrame [1, 2]).readBuffer.set 0 0, readLen := 0,
          parsed := (Receiver.start.afterFrame [1, 2]).parsed ++
            [{ data := (Receiver.start.afterFrame [1, 2]).inMessageBuffer, len := -1 }] }) :=
  ⟨by decide, C15_lone_terminator (Receiver.start.afterFrame [1, 2]) (by decide) (by decide)⟩

/-! ## Claim C16: decoder bounds -/

/-- Claim C16, as amended.  For every well-formed frame of at most 255 bytes
delivered to a receiver with `readLen = 0`, the `unStuffData` call
`readMessage` makes on the terminated accumulator of `readLen` bytes reads only
accumulator positions below `readLen - 1` (its read pointer ends at
`readLen - 1`, and it gives the same result on the accumulator cut off before
the terminator) and writes `readLen - 1 ≤ 254` bytes to `inMessageBuffer`. -/
theorem C16_decoder_bounds (rs : List (List Nat)) (r : Receiver) (hrs : BlockRuns rs)
    (hn : (wireBlocks rs ++ [0]).length ≤ 255) (hrl : r.readLen = 0)
    (hrb : r.readBuffer.length = READ_BUFFER_SIZE)
    (hin : r.inMessageBuffer.length = READ_MESSAGE_BUFFER_SIZE) :
    ∃ r0 rb u, readMessage (wireBlocks rs) r = .ok r0 ∧
      r0.readLen + 1 = (wireBlocks rs ++ [0]).length ∧
      store r0.readBuffer r0.readLen 0 = .ok rb ∧
      unStuffData rb (r0.readLen + 1) r0.inMessageBuffer = .ok u ∧
      unStuffData (rb.take r0.readLen) (r0.readLen + 1) r0.inMessageBuffer = .ok u ∧
      u.ptr = r0.readLen ∧ u.dstp = r0.readLen ∧ u.dstp ≤ READ_MESSAGE_BUFFER_SIZE ∧
      readMessage (wireBlocks rs ++ [0]) r
        = .ok { inMessageBuffer := u.dst, readBuffer := rb, readLen := 0,
                parsed := r.parsed ++ [{ data := u.dst, len := ((r0.readLen + 1 : Nat) : Int) - 2 }] } := by
  rw [wireBlocks_eq_blocks rs hrs] at hn ⊢
  have hn1 : (blocks rs).length + 1 ≤ 255 := by simpa using hn
  obtain ⟨h0, h1⟩ := readMessage_blocks rs r hrs hn1 hrl hrb hin
  simp only [READ_BUFFER_SIZE, READ_MESSAGE_BUFFER_SIZE] at hrb hin ⊢
  obtain ⟨m1, t, m2, hsplit, hm1, _⟩ := split_at r.readBuffer (blocks rs).length (by omega)
  have hdrop0 : r.readBuffer.drop (blocks rs).length = t :: m2 := by
    rw [hsplit, ← hm1, List.drop_left]
  have hdrop : r.readBuffer.drop ((blocks rs).length + 1) = m2 := by
    rw [hsplit]
    have e : m1 ++ t :: m2 = (m1 ++ [t]) ++ m2 := by simp
    have l : (blocks rs).length + 1 = (m1 ++ [t]).length := by simp [hm1]
    rw [l, e, List.drop_left]
  have hu := fun rest0 => unStuffData_blocks rs rest0 (r.inMessageBuffer.take (blocks rs).length)
    (r.inMessageBuffer.drop (blocks rs).length) hrs.length_le hn1
    (by rw [List.length_take]; omega)
  simp only [List.take_append_drop] at hu
  refine ⟨_, blocks rs ++ 0 :: m2, _, h0, by simp, ?_, hu (0 :: m2), ?_, rfl, rfl,
    (by show (blocks rs).length ≤ 254; omega), ?_⟩
  · simp only [hdrop0]
    rw [store_append]
  · simp only []
    rw [List.take_left]
    have := hu []
    rwa [List.append_nil] at this
  · rw [h1, hdrop]
    simp only [Except.ok.injEq, Receiver.mk.injEq, List.append_cancel_left_eq, List.cons.injEq,
      ParseCall.mk.injEq, and_true, true_and]
    push_cast
    ring

/-- Witness of `C16_decoder_bounds`: the frame `[3, 5, 7, 1, 2, 9, 0]`. -/
theorem C16_decoder_bounds_witness :
    (BlockRuns [[5, 7], [], [9]] ∧ (wireBlocks [[5, 7], [], [9]] ++ [0]).length ≤ 255) ∧
    ∃ r0 rb u, readMessage (wireBlocks [[5, 7], [], [9]]) Receiver.start = .ok r0 ∧
      r0.readLen + 1 = (wireBlocks [[5, 7], [], [9]] ++ [0]).length ∧
      store r0.readBuffer r0.readLen 0 = .ok rb ∧
      unStuffData rb (r0.readLen + 1) r0.inMessageBuffer = .ok u ∧
      unStuffData (rb.take r0.readLen) (r0.readLen + 1) r0.inMessageBuffer = .ok u ∧
      u.ptr = r0.readLen ∧ u.dstp = r0.readLen ∧ u.dstp ≤ READ_MESSAGE_BUFFER_SIZE ∧
      readMessage (wireBlocks [[5, 7], [], [9]] ++ [0]) Receiver.start
        = .ok { inMessageBuffer := u.dst, readBuffer := rb, readLen := 0,
                parsed := Receiver.start.parsed ++
                  [{ data := u.dst, len := ((r0.readLen + 1 : Nat) : Int) - 2 }] } :=
  ⟨by decide, C16_decoder_bounds [[5, 7], [], [9]] Receiver.start (by decide) (by decide)
    (by decide) (by decide) (by decide)⟩

/-- Counterexample to claim C16, on input that is not a well-formed frame.
After the frame `[4, 3, 1, 2, 0]`, the bytes `[5, 0]` make `readMessage` call
`unStuffData` on an accumulator of `readLen = 2` bytes; the code byte 5 makes
it read positions 1 to 4, the terminator and three stale bytes (its read
pointer ends at 5, and the bytes 1, 2 of the previous frame reach
`parseMessage`).  On `[255, 0]` the code byte 255 makes it copy 254 bytes and
then store a 255th byte to `inMessageBuffer[254]`, outside the 254-byte
array. -/
theorem C16_counterexample :
    (readMessage ([4, 3, 1, 2, 0] ++ [5, 0]) Receiver.start).map
        (fun r => r.parsed.map (fun c => (c.data.take 5, c.len)))
      = .ok [([3, 1, 2, 0, 0], 3), ([0, 1, 2, 0, 0], 0)] ∧
    (unStuffData ([5, 0, 1, 2, 0] ++ List.replicate 251 0) 2
        ([3, 1, 2, 0] ++ List.replicate 250 0)).map (fun u => (u.ptr, u.dstp))
      = .ok (5, 5) ∧
    readMessage [255, 0] Receiver.start = .error .outOfBounds ∧
    (unStuffData ([255, 0] ++ List.replicate 254 0) 2 (List.replicate 255 0)).map
        (fun u => (u.ptr, u.dstp))
      = .ok (255, 255) := by
  decide

end Ridici
